import Mathlib

/-!
# Verification of the `initq` fixed-point dependency resolver

A shallow embedding of the Go package `initq` (files `InitQ.go`,
`InitQItem.go`, `ReqResult.go`, `behaviours.go`, `QUnresolvable.go`).

Modelling conventions:
* Task actions (`QFunc`, Go closures with side effects on application state)
  are modelled as pure state transformers `σ → σ × ReqResult` over an
  arbitrary world type `σ`, threaded through the resolution loop.
* The process-wide mutable toggle `BehaveUnresolvIsErr` is passed as an
  explicit boolean parameter `behave`; its Go zero-value default is the
  constant `BehaveUnresolvIsErrDefault`.
* `log.Fatal`/`log.Fatalf` (process-halting assertions) are modelled as
  distinguished `fatal` outcomes carrying the diagnostic message.
* A ghost invocation log (`List String` of task labels, in invocation order)
  records every actual call of a task action, so that claims of the form
  "the action is never invoked" are statable.
-/

namespace InitQ

/-- Type `ReqResult` from `ReqResult.go`: the result enumeration returned by a
requirement function and stored as a task's state. -/
inductive ReqResult : Type
  | UnRun
  | Satisfied
  | TryAgain
  | Stop
deriving DecidableEq, Repr

open ReqResult

/-- Structure `initQItem` from `InitQItem.go`: one registered task. The action `f` is a
world transformer (see module conventions). -/
structure InitQItem (σ : Type) where
  f : σ → σ × ReqResult
  name : String
  state : ReqResult
  deps : List String

/-- Constructor `newInitQItem` from `InitQItem.go`: constructor, initial state `UnRun`. -/
def newInitQItem (f : σ → σ × ReqResult) (name : String) (deps : List String) :
    InitQItem σ :=
  { f := f, name := name, state := UnRun, deps := deps }

/-- Method `initQItem.run` from `InitQItem.go`: invoke the action only when the state
is `TryAgain` or `UnRun`, store and return the result.  Returns
(updated item, updated world, returned state, whether the action was invoked);
the last component is ghost instrumentation. -/
def runItem (rqi : InitQItem σ) (w : σ) : InitQItem σ × σ × ReqResult × Bool :=
  if rqi.state = TryAgain ∨ rqi.state = UnRun then
    let p := rqi.f w
    ({ rqi with state := p.2 }, p.1, p.2, true)
  else
    (rqi, w, rqi.state, false)

/-- Structure `InitQ` from `InitQ.go`: the ordered task list plus the sticky
registration-error message (`addErr`, empty string = no error). -/
structure InitQState (σ : Type) where
  q : List (InitQItem σ)
  addErr : String

/-- Constructor `NewInitQ` from `InitQ.go`: a fresh, empty queue (Go zero values). -/
def NewInitQ (σ : Type) : InitQState σ := { q := [], addErr := "" }

/-- Go zero-value of the global toggle `BehaveUnresolvIsErr`
(`behaviours.go`): off by default. -/
def BehaveUnresolvIsErrDefault : Bool := false

/-- Outcome of an `Add` call: either the updated queue, or a
`log.Fatal` halt with its message (the queue at the halt is also kept). -/
inductive AddOut (σ : Type)
  | ok (rq : InitQState σ)
  | fatal (msg : String) (rq : InitQState σ)

/-- Method `InitQ.Add` from `InitQ.go`: validates the label, the function reference
and self-referencing dependencies; on rejection it overwrites `addErr` and —
depending on the toggle — either returns or halts.  On acceptance it appends
a new item. -/
def Add (rq : InitQState σ) (behave : Bool) (name : String)
    (f : Option (σ → σ × ReqResult)) (deps : List String) : AddOut σ :=
  if name.length = 0 then
    let rq' := { rq with addErr := "Add called with an empty name label." }
    if behave then .ok rq' else .fatal rq'.addErr rq'
  else
    match f with
    | none =>
      let rq' :=
        { rq with addErr := "Add(" ++ name ++ ") called with a nil function." }
      if behave then .ok rq' else .fatal rq'.addErr rq'
    | some fn =>
      if name ∈ deps then
        let rq' :=
          { rq with
            addErr :=
              "Add(" ++ name ++ ") called with a self-referencing dependency." }
        if behave then .ok rq'
        else .fatal "Unable to add a self-referencing dependency." rq'
      else
        .ok { rq with q := rq.q ++ [newInitQItem fn name deps] }

/-- Fold a sequence of `Add` calls; once a `log.Fatal` occurs nothing further
runs (the process halted). -/
def addAll (behave : Bool) (st : AddOut σ) (regs : List (String × Option (σ → σ × ReqResult) × List String)) :
    AddOut σ :=
  regs.foldl
    (fun st r =>
      match st with
      | .fatal m rq => .fatal m rq
      | .ok rq => Add rq behave r.1 r.2.1 r.2.2) st

/-- Method `InitQ.satisfied` from `InitQ.go`: does some record with this name have
state `Satisfied`? -/
def satisfiedQ (q : List (InitQItem σ)) (name : String) : Bool :=
  q.any fun rqi => decide (rqi.name = name ∧ rqi.state = Satisfied)

/-- Structure `QUnresolvable` from `QUnresolvable.go`: the structured non-convergence
error holding the unsatisfied labels. -/
structure QUnresolvable where
  unsat : List String
deriving DecidableEq, Repr

/-- Constructor `newQUnresolvable` from `QUnresolvable.go` (the slice is cloned; value
identical). -/
def newQUnresolvable (remains : List String) : QUnresolvable :=
  { unsat := remains }

/-- Method `QUnresolvable.Error` from `QUnresolvable.go`. -/
def QUnresolvable.Error (qur : QUnresolvable) : String :=
  if qur.unsat.length > 0 then
    "run Q cannot be satisfied (" ++ String.intercalate "," qur.unsat ++ " remain)"
  else
    "run Q cannot be satisfied"

/-- Method `QUnresolvable.UnresolvedTasks` from `QUnresolvable.go`. -/
def QUnresolvable.UnresolvedTasks (qur : QUnresolvable) : List String :=
  qur.unsat

/-- The error values `process` can return: `generic` models the
`fmt.Errorf` errors (message only), `qStopped` is the sentinel
`ErrQStopped`, `qUnsolvable` the sentinel `ErrQUnsolvable`, and
`qUnresolvable` carries the structured `*QUnresolvable` error. -/
inductive PErr : Type
  | generic (msg : String)
  | qStopped
  | qUnsolvable
  | qUnresolvable (e : QUnresolvable)
deriving DecidableEq, Repr

/-- Result channel of `process`: normal return (`ok` = nil error,
`err` = non-nil error) or a `log.Fatal` process halt. -/
inductive PRes : Type
  | ok
  | err (e : PErr)
  | fatal (msg : String)
deriving DecidableEq, Repr

/-- Full observable outcome of one `process` call: result, final queue,
final world, ghost invocation log, and number of pass-loop iterations
entered. -/
structure POut (σ : Type) where
  res : PRes
  q : List (InitQItem σ)
  world : σ
  log : List String
  passes : Nat

/-- Outcome of one pass over the queue (`InitQ.go` lines 252-290):
`ok` = the pass ran to the end (with the convergence flag), `failed` = a
run returned `UnRun` (internal defect), `stopped` = a run returned `Stop`. -/
inductive PassOut (σ : Type)
  | ok (q : List (InitQItem σ)) (w : σ) (log : List String) (sat : Bool)
  | failed (msg : String) (q : List (InitQItem σ)) (w : σ) (log : List String)
  | stopped (q : List (InitQItem σ)) (w : σ) (log : List String)

/-- One pass of the resolution loop.  `processed` are the items already
handled this pass (mutated in place in Go, hence visible to the
`satisfiedQ` dependency checks), `pending` the rest.  For each pending item:
if some explicit dependency is unsatisfied, set its state to `TryAgain` and
clear the convergence flag; otherwise run it and dispatch on the result. -/
def onePass (processed pending : List (InitQItem σ)) (w : σ)
    (log : List String) (sat : Bool) : PassOut σ :=
  match pending with
  | [] => .ok processed w log sat
  | rqi :: rest =>
    if rqi.deps.all (fun d => satisfiedQ (processed ++ rqi :: rest) d) then
      let t := runItem rqi w
      let log' := if t.2.2.2 then log ++ [rqi.name] else log
      match t.2.2.1 with
      | UnRun =>
        .failed ("Failed to process task " ++ rqi.name ++ ".")
          (processed ++ t.1 :: rest) t.2.1 log'
      | TryAgain => onePass (processed ++ [t.1]) rest t.2.1 log' false
      | Stop => .stopped (processed ++ t.1 :: rest) t.2.1 log'
      | Satisfied => onePass (processed ++ [t.1]) rest t.2.1 log' sat
    else
      onePass (processed ++ [{ rqi with state := TryAgain }]) rest w log false

/-- The incremental duplicate-label scan of `process` (`InitQ.go` lines
210-225): first label already seen wins. -/
def findDup (seen : List String) : List (InitQItem σ) → Option String
  | [] => none
  | t :: rest =>
    if t.name ∈ seen then some t.name else findDup (seen ++ [t.name]) rest

/-- The labels of all registered tasks (`validLabels` in `InitQ.go`). -/
def labelsOf (q : List (InitQItem σ)) : List String := q.map (·.name)

/-- The dangling-dependency scan of `process` (`InitQ.go` lines 227-238):
first (task, dependency) pair whose dependency matches no label. -/
def findDangling (labels : List String) : List (InitQItem σ) → Option (String × String)
  | [] => none
  | t :: rest =>
    match t.deps.find? (fun d => !(labels.contains d)) with
    | some d => some (t.name, d)
    | none => findDangling labels rest

/-- Labels of the records still in state `TryAgain` (`remaining` in
`InitQ.go` lines 313-318). -/
def remainingOf (q : List (InitQItem σ)) : List String :=
  (q.filter fun rqi => decide (rqi.state = TryAgain)).map (·.name)

/-- The non-convergence diagnostic of the `log.Fatalf` branch
(`InitQ.go` line 329). -/
def exhaustMsg (remaining : List String) : String :=
  "run Q cannot be satisfied (" ++ String.intercalate "," remaining ++ " remain)"

/-- The pass loop of `process` (`InitQ.go` lines 241-334), fuelled by the
remaining loop iterations (`qlen + 1` initially, matching
`for passes <= qlen`).  When the fuel is exhausted the non-convergence
handling runs: `TryProcess` (`unsatIsError`) returns the structured error;
otherwise the toggle selects `log.Fatalf` or the sentinel
`ErrQUnsolvable`. -/
def processLoop (unsatIsError behave : Bool) (q : List (InitQItem σ)) (w : σ)
    (log : List String) (pcount : Nat) : Nat → POut σ
  | 0 =>
    let remaining := remainingOf q
    if unsatIsError then
      ⟨.err (.qUnresolvable (newQUnresolvable remaining)), q, w, log, pcount⟩
    else if behave = false then
      ⟨.fatal (exhaustMsg remaining), q, w, log, pcount⟩
    else
      ⟨.err .qUnsolvable, q, w, log, pcount⟩
  | fuel + 1 =>
    match onePass [] q w log true with
    | .ok q' w' log' sat =>
      if sat then ⟨.ok, q', w', log', pcount + 1⟩
      else processLoop unsatIsError behave q' w' log' (pcount + 1) fuel
    | .failed msg q' w' log' =>
      if behave then ⟨.err (.generic msg), q', w', log', pcount + 1⟩
      else ⟨.fatal msg, q', w', log', pcount + 1⟩
    | .stopped q' w' log' => ⟨.err .qStopped, q', w', log', pcount + 1⟩

/-- Method `InitQ.process` from `InitQ.go`: surface a sticky registration error,
validate duplicate labels and dangling dependencies (toggle selects error or
`log.Fatal`), then run the pass loop. -/
def process (rq : InitQState σ) (unsatIsError behave : Bool) (w : σ) : POut σ :=
  if rq.addErr.length > 0 then
    ⟨.err (.generic rq.addErr), rq.q, w, [], 0⟩
  else
    match findDup [] rq.q with
    | some nm =>
      let msg := "The " ++ nm ++ " task label was used more than once."
      if behave then ⟨.err (.generic msg), rq.q, w, [], 0⟩
      else ⟨.fatal msg, rq.q, w, [], 0⟩
    | none =>
      match findDangling (labelsOf rq.q) rq.q with
      | some td =>
        let msg := "Task " ++ td.1 ++ " has dependency " ++ td.2 ++
          " that does not match any existing task."
        if behave then ⟨.err (.generic msg), rq.q, w, [], 0⟩
        else ⟨.fatal msg, rq.q, w, [], 0⟩
      | none => processLoop unsatIsError behave rq.q w [] 0 (rq.q.length + 1)

/-- Method `InitQ.Process` from `InitQ.go`: `process` with `unsatIsError = false`. -/
def Process (rq : InitQState σ) (behave : Bool) (w : σ) : POut σ :=
  process rq false behave w

/-- Method `InitQ.TryProcess` from `InitQ.go`: `process` with
`unsatIsError = true`. -/
def TryProcess (rq : InitQState σ) (behave : Bool) (w : σ) : POut σ :=
  process rq true behave w


/-! ## Derived definitions used by the verification -/

/-- The queue carried by a pass outcome, whatever the outcome. -/
def PassOut.outQ : PassOut σ → List (InitQItem σ)
  | .ok q _ _ _ => q
  | .failed _ q _ _ => q
  | .stopped q _ _ => q

/-- Projection out of `AddOut` (on the `fatal` branch the process has halted;
the queue value is kept only so the projection is total). -/
def okQ : AddOut σ → InitQState σ
  | .ok rq => rq
  | .fatal _ rq => rq

/-- An action that leaves the world alone and always reports `r`. -/
def constU (r : ReqResult) : Unit → Unit × ReqResult := fun u => (u, r)

/-- The rejection test of `Add`, with the message it records: mirrors the
three `Add` validation branches in order (empty label, nil function,
self-referencing dependency). `none` means the registration is accepted. -/
def rejMsg (σ : Type) (r : String × Option (σ → σ × ReqResult) × List String) :
    Option String :=
  if r.1.length = 0 then some "Add called with an empty name label."
  else
    match r.2.1 with
    | none => some ("Add(" ++ r.1 ++ ") called with a nil function.")
    | some _ =>
      if r.1 ∈ r.2.2 then
        some ("Add(" ++ r.1 ++ ") called with a self-referencing dependency.")
      else none

/-- Reachability invariant of the resolver: every record in state
`Satisfied` or `Stop` has all of its explicit dependencies satisfied in the
queue.  It holds for a freshly registered queue (all states `UnRun`) and is
preserved by the pass loop. -/
def GoodQ (q : List (InitQItem σ)) : Prop :=
  ∀ it ∈ q, (it.state = Satisfied ∨ it.state = Stop) →
    ∀ d ∈ it.deps, satisfiedQ q d = true

/-- How one record evolves across (part of) a pass: label, action and
dependency list never change, and a `Satisfied` state is never left. -/
def ItemEvol (a b : InitQItem σ) : Prop :=
  a.name = b.name ∧ a.f = b.f ∧ a.deps = b.deps ∧
    (a.state = Satisfied → b.state = Satisfied)

/-- Pointwise evolution of the whole queue. -/
def Evol (q q' : List (InitQItem σ)) : Prop := List.Forall₂ ItemEvol q q'

/-- An action that reports successful completion whenever invoked. -/
def ConstSat (f : σ → σ × ReqResult) : Prop := ∀ w, (f w).2 = Satisfied

/-- Number of records already in state `Satisfied`. -/
def satCount (q : List (InitQItem σ)) : Nat :=
  (q.filter fun it => decide (it.state = Satisfied)).length

/-- The pass-invariant skeleton of the queue: labels and dependency lists
(the pass loop only rewrites states and the world). -/
def skelOf (q : List (InitQItem σ)) : List (String × List String) :=
  q.map fun it => (it.name, it.deps)

/-! ### A worst-case dependency chain (for the termination-bound claims)

Task `j` of the chain depends on task `j - 1`, either through an explicit
("semaphore") dependency label, or by its action returning `TryAgain` until
the predecessor has completed.  The world is a `Nat` counting how many
initial tasks of the chain have completed; every action marks its own
completion on success.  The per-task boolean `c j` selects the style
(`true` = detect the predecessor inside the action, `false` = explicit
dependency label), so every mixed chain is covered. -/

/-- Label of chain task `j` (non-empty, distinct for distinct `j`). -/
def chainName (j : Nat) : String := String.mk (List.replicate (j + 1) 'a')

/-- Action of chain task `j`.  Style `true`: return `TryAgain` until the
predecessor is recorded complete, then record completion and return
`Satisfied`.  Style `false` (guarded by an explicit dependency instead):
record completion and return `Satisfied`. -/
def chainAct (c : Bool) (j : Nat) : Nat → Nat × ReqResult :=
  if c then
    fun w => if j ≤ w then (Nat.max w (j + 1), Satisfied) else (w, TryAgain)
  else fun w => (Nat.max w (j + 1), Satisfied)

/-- Explicit dependencies of chain task `j` under style `c`. -/
def chainDeps (c : Bool) (j : Nat) : List String :=
  if c then [] else if j = 0 then [] else [chainName (j - 1)]

/-- Chain task `j` with state assignment `st`. -/
def chainItem (c : Nat → Bool) (st : Nat → ReqResult) (j : Nat) : InitQItem Nat :=
  { f := chainAct (c j) j, name := chainName j, state := st j,
    deps := chainDeps (c j) j }

/-- State assignment mid-resolution: tasks below `k` are `Satisfied`, the
rest carry `u`. -/
def stFun (k : Nat) (u : ReqResult) : Nat → ReqResult :=
  fun j => if j < k then Satisfied else u

/-- The chain tasks `n - 1, …, 1, 0` in fully reversed (worst-case)
registration order, with state assignment `stFun k u`. -/
def chainQ (c : Nat → Bool) (k : Nat) (u : ReqResult) (n : Nat) :
    List (InitQItem Nat) :=
  (List.range n).reverse.map (chainItem c (stFun k u))

/-- A freshly registered reversed chain of `n` tasks. -/
def chainInit (c : Nat → Bool) (n : Nat) : InitQState Nat :=
  { q := chainQ c 0 UnRun n, addErr := "" }

/-! ### Concrete queues used by individual claims -/

/-- Registration list `[A, B, Stopper, C, D]` of the stop-short-circuit
scenario. -/
def stopRegs : List (String × Option (Unit → Unit × ReqResult) × List String) :=
  [("A", some (constU Satisfied), []), ("B", some (constU Satisfied), []),
   ("Stopper", some (constU Stop), []), ("C", some (constU Satisfied), []),
   ("D", some (constU Satisfied), [])]

/-- The stop-short-circuit queue. -/
def stopQ : InitQState Unit := okQ (addAll false (.ok (NewInitQ Unit)) stopRegs)

/-- Registration list `[good1, unsat, good2]` of the non-convergence
scenario. -/
def unsatRegs : List (String × Option (Unit → Unit × ReqResult) × List String) :=
  [("good1", some (constU Satisfied), []), ("unsat", some (constU TryAgain), []),
   ("good2", some (constU Satisfied), [])]

/-- The non-convergence queue. -/
def unsatQ : InitQState Unit :=
  okQ (addAll false (.ok (NewInitQ Unit)) unsatRegs)

/-- Two rejected registrations in sequence (empty label, then nil function),
with the error-behaviour toggle enabled. -/
def badRegs : List (String × Option (Unit → Unit × ReqResult) × List String) :=
  [("", some (constU Satisfied), []), ("x", none, [])]

/-- The queue after the two rejected registrations. -/
def badQ : InitQState Unit := okQ (addAll true (.ok (NewInitQ Unit)) badRegs)

/-- A two-task queue whose second task stops resolution. -/
def stopPairQ : InitQState Unit :=
  okQ (addAll false (.ok (NewInitQ Unit))
    [("A", some (constU Satisfied), []), ("S", some (constU Stop), [])])

/-- A small queue that converges (used to exercise re-resolution). -/
def convQ : InitQState Unit :=
  okQ (addAll false (.ok (NewInitQ Unit))
    [("one", some (constU Satisfied), []), ("two", some (constU Satisfied), [])])

/-! ## Basic lemmas -/

theorem satisfiedQ_iff {q : List (InitQItem σ)} {d : String} :
    satisfiedQ q d = true ↔ ∃ it ∈ q, it.name = d ∧ it.state = Satisfied := by
  simp [satisfiedQ, List.any_eq_true]

theorem onePass_nil (processed : List (InitQItem σ)) (w : σ) (log : List String)
    (sat : Bool) : onePass processed [] w log sat = .ok processed w log sat := rfl

theorem onePass_cons (processed rest : List (InitQItem σ)) (rqi : InitQItem σ)
    (w : σ) (log : List String) (sat : Bool) :
    onePass processed (rqi :: rest) w log sat =
      if rqi.deps.all (fun d => satisfiedQ (processed ++ rqi :: rest) d) then
        let t := runItem rqi w
        let log' := if t.2.2.2 then log ++ [rqi.name] else log
        match t.2.2.1 with
        | UnRun =>
          .failed ("Failed to process task " ++ rqi.name ++ ".")
            (processed ++ t.1 :: rest) t.2.1 log'
        | TryAgain => onePass (processed ++ [t.1]) rest t.2.1 log' false
        | Stop => .stopped (processed ++ t.1 :: rest) t.2.1 log'
        | Satisfied => onePass (processed ++ [t.1]) rest t.2.1 log' sat
      else
        onePass (processed ++ [{ rqi with state := TryAgain }]) rest w log false := rfl

theorem runItem_skip (rqi : InitQItem σ) (w : σ)
    (h : ¬(rqi.state = TryAgain ∨ rqi.state = UnRun)) :
    runItem rqi w = (rqi, w, rqi.state, false) := by
  simp [runItem, h]

theorem runItem_invoke (rqi : InitQItem σ) (w : σ)
    (h : rqi.state = TryAgain ∨ rqi.state = UnRun) :
    runItem rqi w =
      ({ rqi with state := (rqi.f w).2 }, (rqi.f w).1, (rqi.f w).2, true) := by
  simp [runItem, h]

/-- After a full pass, every record is `TryAgain` or `Satisfied`. -/
theorem onePass_states (pending : List (InitQItem σ)) :
    ∀ (processed : List (InitQItem σ)) (w : σ) (log : List String) (sat : Bool),
    (∀ it ∈ processed, it.state = TryAgain ∨ it.state = Satisfied) →
    ∀ q' w' log' sat', onePass processed pending w log sat = .ok q' w' log' sat' →
    ∀ it ∈ q', it.state = TryAgain ∨ it.state = Satisfied := by
  induction pending with
  | nil =>
    intro processed w log sat hp q' w' log' sat' h
    rw [onePass_nil] at h
    cases h
    exact hp
  | cons rqi rest ih =>
    intro processed w log sat hp q' w' log' sat' h
    rw [onePass_cons] at h
    by_cases hdeps : rqi.deps.all
        (fun d => satisfiedQ (processed ++ rqi :: rest) d) = true
    · rw [if_pos hdeps] at h
      by_cases hrun : rqi.state = TryAgain ∨ rqi.state = UnRun
      · rw [runItem_invoke rqi w hrun] at h
        cases hr : (rqi.f w).2 <;> rw [hr] at h
        · exact absurd h (by simp)
        · refine ih _ _ _ _ ?_ _ _ _ _ h
          intro it hit
          rcases List.mem_append.mp hit with hit | hit
          · exact hp it hit
          · simp at hit
            subst hit
            right
            rfl
        · refine ih _ _ _ _ ?_ _ _ _ _ h
          intro it hit
          rcases List.mem_append.mp hit with hit | hit
          · exact hp it hit
          · simp at hit
            subst hit
            left
            rfl
        · exact absurd h (by simp)
      · rw [runItem_skip rqi w hrun] at h
        push_neg at hrun
        rcases hst : rqi.state with h1 | h1 | h1 | h1
        · exact absurd hst hrun.2
        · rw [hst] at h
          refine ih _ _ _ _ ?_ _ _ _ _ h
          intro it hit
          rcases List.mem_append.mp hit with hit | hit
          · exact hp it hit
          · simp at hit
            subst hit
            right
            exact hst
        · exact absurd hst hrun.1
        · rw [hst] at h
          exact absurd h (by simp)
    · rw [if_neg hdeps] at h
      refine ih _ _ _ _ ?_ _ _ _ _ h
      intro it hit
      rcases List.mem_append.mp hit with hit | hit
      · exact hp it hit
      · simp at hit
        subst hit
        left
        rfl

/-- A pass that ends with the convergence flag still set entered with it set
and leaves every item it handled in state `Satisfied`. -/
theorem onePass_converged (pending : List (InitQItem σ)) :
    ∀ (processed : List (InitQItem σ)) (w : σ) (log : List String) (sat : Bool)
      q' w' log', onePass processed pending w log sat = .ok q' w' log' true →
    sat = true ∧ ∃ pend', q' = processed ++ pend' ∧
      ∀ it ∈ pend', it.state = Satisfied := by
  induction pending with
  | nil =>
    intro processed w log sat q' w' log' h
    rw [onePass_nil] at h
    cases h
    exact ⟨rfl, [], by simp⟩
  | cons rqi rest ih =>
    intro processed w log sat q' w' log' h
    rw [onePass_cons] at h
    by_cases hdeps : rqi.deps.all
        (fun d => satisfiedQ (processed ++ rqi :: rest) d) = true
    · rw [if_pos hdeps] at h
      by_cases hrun : rqi.state = TryAgain ∨ rqi.state = UnRun
      · rw [runItem_invoke rqi w hrun] at h
        cases hr : (rqi.f w).2 <;> rw [hr] at h
        · exact absurd h (by simp)
        · obtain ⟨hsat, pend', hq', hpend⟩ := ih _ _ _ _ _ _ _ h
          refine ⟨hsat, { rqi with state := Satisfied } :: pend', by simp [hq'], ?_⟩
          intro it hit
          rcases List.mem_cons.mp hit with hit | hit
          · subst hit; rfl
          · exact hpend it hit
        · obtain ⟨hfalse, -⟩ := ih _ _ _ _ _ _ _ h
          exact absurd hfalse (by simp)
        · exact absurd h (by simp)
      · rw [runItem_skip rqi w hrun] at h
        push_neg at hrun
        rcases hst : rqi.state
        · exact absurd hst hrun.2
        · rw [hst] at h
          obtain ⟨hsat, pend', hq', hpend⟩ := ih _ _ _ _ _ _ _ h
          refine ⟨hsat, rqi :: pend', by simp [hq'], ?_⟩
          intro it hit
          rcases List.mem_cons.mp hit with hit | hit
          · subst hit; exact hst
          · exact hpend it hit
        · exact absurd hst hrun.1
        · rw [hst] at h
          exact absurd h (by simp)
    · rw [if_neg hdeps] at h
      obtain ⟨hfalse, -⟩ := ih _ _ _ _ _ _ _ h
      exact absurd hfalse (by simp)

theorem processLoop_zero (u b : Bool) (q : List (InitQItem σ)) (w : σ)
    (log : List String) (pcount : Nat) :
    processLoop u b q w log pcount 0 =
      if u then
        ⟨.err (.qUnresolvable (newQUnresolvable (remainingOf q))), q, w, log, pcount⟩
      else if b = false then
        ⟨.fatal (exhaustMsg (remainingOf q)), q, w, log, pcount⟩
      else
        ⟨.err .qUnsolvable, q, w, log, pcount⟩ := rfl

theorem processLoop_succ (u b : Bool) (q : List (InitQItem σ)) (w : σ)
    (log : List String) (pcount fuel : Nat) :
    processLoop u b q w log pcount (fuel + 1) =
      match onePass [] q w log true with
      | .ok q' w' log' sat =>
        if sat then ⟨.ok, q', w', log', pcount + 1⟩
        else processLoop u b q' w' log' (pcount + 1) fuel
      | .failed msg q' w' log' =>
        if b then ⟨.err (.generic msg), q', w', log', pcount + 1⟩
        else ⟨.fatal msg, q', w', log', pcount + 1⟩
      | .stopped q' w' log' => ⟨.err .qStopped, q', w', log', pcount + 1⟩ := rfl

/-- The pass loop enters its body at most `fuel` times. -/
theorem processLoop_passes_le (fuel : Nat) :
    ∀ (u b : Bool) (q : List (InitQItem σ)) (w : σ) (log : List String)
      (pcount : Nat),
    (processLoop u b q w log pcount fuel).passes ≤ pcount + fuel := by
  induction fuel with
  | zero =>
    intro u b q w log pcount
    rw [processLoop_zero]
    by_cases hu : u = true
    · simp [hu]
    · by_cases hb : b = false <;> simp [hu, hb]
  | succ fuel ih =>
    intro u b q w log pcount
    cases hp : onePass [] q w log true with
    | ok q' w' log' sat =>
      by_cases hs : sat = true
      · simp only [processLoop_succ, hp, hs, if_pos]
        show pcount + 1 ≤ pcount + (fuel + 1)
        omega
      · rw [Bool.not_eq_true] at hs
        subst hs
        simp only [processLoop_succ, hp, Bool.false_eq_true, if_false]
        calc (processLoop u b q' w' log' (pcount + 1) fuel).passes
            ≤ (pcount + 1) + fuel := ih u b q' w' log' (pcount + 1)
          _ = pcount + (fuel + 1) := by omega
    | failed msg q' w' log' =>
      by_cases hb : b = true <;>
        simp only [processLoop_succ, hp, hb, Bool.false_eq_true, if_pos, if_false,
          Bool.not_eq_true] <;>
      · show pcount + 1 ≤ pcount + (fuel + 1)
        omega
    | stopped q' w' log' =>
      simp only [processLoop_succ, hp]
      show pcount + 1 ≤ pcount + (fuel + 1)
      omega

/-- When every state is `TryAgain` or `Satisfied`, the `remaining` list is
exactly the labels of the records not yet `Satisfied`. -/
theorem remainingOf_eq_not_satisfied (q : List (InitQItem σ))
    (h : ∀ it ∈ q, it.state = TryAgain ∨ it.state = Satisfied) :
    remainingOf q =
      (q.filter fun it => !decide (it.state = Satisfied)).map (·.name) := by
  unfold remainingOf
  congr 1
  apply List.filter_congr
  intro it hit
  rcases h it hit with h1 | h1 <;> simp [h1]

/-- Characterisation of the exhaustion outcomes of the pass loop. -/
theorem processLoop_exhaust (fuel : Nat) :
    ∀ (u b : Bool) (q : List (InitQItem σ)) (w : σ) (log : List String)
      (pcount : Nat),
    ((∀ it ∈ q, it.state = TryAgain ∨ it.state = Satisfied) ∨ 1 ≤ fuel) →
    (∀ e, (processLoop u b q w log pcount fuel).res = .err (.qUnresolvable e) →
      u = true ∧ e.unsat = remainingOf (processLoop u b q w log pcount fuel).q ∧
      ∀ it ∈ (processLoop u b q w log pcount fuel).q,
        it.state = TryAgain ∨ it.state = Satisfied) ∧
    ((processLoop u b q w log pcount fuel).res = .err .qUnsolvable →
      u = false ∧ b = true) := by
  induction fuel with
  | zero =>
    intro u b q w log pcount hstates
    rcases hstates with hstates | hstates
    · rw [processLoop_zero]
      by_cases hu : u = true
      · rw [if_pos hu]
        constructor
        · intro e he
          have he' : newQUnresolvable (remainingOf q) = e := by
            simpa using he
          refine ⟨hu, ?_, hstates⟩
          rw [← he']
          rfl
        · intro he
          exact absurd he (by simp)
      · rw [if_neg hu]
        rw [Bool.not_eq_true] at hu
        by_cases hb : b = false
        · rw [if_pos hb]
          exact ⟨fun e he => absurd he (by simp), fun he => absurd he (by simp)⟩
        · rw [if_neg hb]
          rw [Bool.not_eq_false] at hb
          exact ⟨fun e he => absurd he (by simp), fun _ => ⟨hu, hb⟩⟩
    · omega
  | succ fuel ih =>
    intro u b q w log pcount _
    cases hp : onePass [] q w log true with
    | ok q' w' log' sat =>
      by_cases hs : sat = true
      · subst hs
        simp only [processLoop_succ, hp, if_pos]
        exact ⟨fun e he => absurd he (by simp), fun he => absurd he (by simp)⟩
      · rw [Bool.not_eq_true] at hs
        subst hs
        simp only [processLoop_succ, hp, Bool.false_eq_true, if_false]
        refine ih u b q' w' log' (pcount + 1) (Or.inl ?_)
        exact onePass_states q [] w log true (by simp) q' w' log' false hp
    | failed msg q' w' log' =>
      by_cases hb : b = true <;>
        simp only [processLoop_succ, hp, hb, Bool.false_eq_true, if_pos, if_false] <;>
        exact ⟨fun e he => absurd he (by simp), fun he => absurd he (by simp)⟩
    | stopped q' w' log' =>
      simp only [processLoop_succ, hp]
      exact ⟨fun e he => absurd he (by simp), fun he => absurd he (by simp)⟩

/-! ## Queue evolution machinery -/

theorem satisfiedQ_append (l1 l2 : List (InitQItem σ)) (d : String) :
    satisfiedQ (l1 ++ l2) d = (satisfiedQ l1 d || satisfiedQ l2 d) := by
  simp [satisfiedQ, List.any_append]

theorem satisfiedQ_cons (x : InitQItem σ) (l : List (InitQItem σ)) (d : String) :
    satisfiedQ (x :: l) d =
      (decide (x.name = d ∧ x.state = Satisfied) || satisfiedQ l d) := by
  simp [satisfiedQ]

theorem satisfiedQ_replace {l1 l2 : List (InitQItem σ)} {x x' : InitQItem σ}
    (hname : x'.name = x.name)
    (hsat : x.state = Satisfied → x'.state = Satisfied) (d : String)
    (h : satisfiedQ (l1 ++ x :: l2) d = true) :
    satisfiedQ (l1 ++ x' :: l2) d = true := by
  rw [satisfiedQ_append, satisfiedQ_cons] at h ⊢
  rcases Bool.or_eq_true _ _ |>.mp h with h1 | h1
  · exact Bool.or_eq_true _ _ |>.mpr (Or.inl h1)
  · rcases Bool.or_eq_true _ _ |>.mp h1 with h2 | h2
    · refine Bool.or_eq_true _ _ |>.mpr (Or.inr (Bool.or_eq_true _ _ |>.mpr (Or.inl ?_)))
      rw [decide_eq_true_eq] at h2 ⊢
      exact ⟨hname.trans h2.1, hsat h2.2⟩
    · exact Bool.or_eq_true _ _ |>.mpr (Or.inr (Bool.or_eq_true _ _ |>.mpr (Or.inr h2)))

theorem GoodQ_replace {l1 l2 : List (InitQItem σ)} {x x' : InitQItem σ}
    (hg : GoodQ (l1 ++ x :: l2)) (hname : x'.name = x.name)
    (hdeps : x'.deps = x.deps)
    (hsat : x.state = Satisfied → x'.state = Satisfied)
    (hx' : (x'.state = Satisfied ∨ x'.state = Stop) →
      ∀ d ∈ x'.deps, satisfiedQ (l1 ++ x :: l2) d = true) :
    GoodQ (l1 ++ x' :: l2) := by
  intro it hit hstate d hd
  rcases List.mem_append.mp hit with h1 | h1
  · exact satisfiedQ_replace hname hsat d
      (hg it (List.mem_append.mpr (Or.inl h1)) hstate d hd)
  · rcases List.mem_cons.mp h1 with h2 | h2
    · subst h2
      exact satisfiedQ_replace hname hsat d (hx' hstate d hd)
    · exact satisfiedQ_replace hname hsat d
        (hg it (List.mem_append.mpr (Or.inr (List.mem_cons.mpr (Or.inr h2)))) hstate d hd)

theorem ItemEvol.rfl (a : InitQItem σ) : ItemEvol a a :=
  ⟨Eq.refl _, Eq.refl _, Eq.refl _, id⟩

theorem itemEvol_trans {a b c : InitQItem σ} (h1 : ItemEvol a b)
    (h2 : ItemEvol b c) : ItemEvol a c :=
  ⟨h1.1.trans h2.1, h1.2.1.trans h2.2.1, h1.2.2.1.trans h2.2.2.1,
    fun h => h2.2.2.2 (h1.2.2.2 h)⟩

theorem Evol.refl (q : List (InitQItem σ)) : Evol q q := by
  induction q with
  | nil => exact List.Forall₂.nil
  | cons x l ih => exact List.Forall₂.cons (ItemEvol.rfl x) ih

theorem evol_trans {q1 q2 q3 : List (InitQItem σ)} (h1 : Evol q1 q2)
    (h2 : Evol q2 q3) : Evol q1 q3 := by
  induction h1 generalizing q3 with
  | nil =>
    cases h2
    exact List.Forall₂.nil
  | cons hab h1 ih =>
    cases h2 with
    | cons hbc h2 => exact List.Forall₂.cons (itemEvol_trans hab hbc) (ih h2)

theorem Evol.append {q1 q2 q3 q4 : List (InitQItem σ)} (h1 : Evol q1 q2)
    (h2 : Evol q3 q4) : Evol (q1 ++ q3) (q2 ++ q4) := by
  induction h1 with
  | nil => exact h2
  | cons hab h1 ih => exact List.Forall₂.cons hab ih

theorem Evol.replace {l1 l2 : List (InitQItem σ)} {x x' : InitQItem σ}
    (h : ItemEvol x x') : Evol (l1 ++ x :: l2) (l1 ++ x' :: l2) :=
  Evol.append (Evol.refl l1) (List.Forall₂.cons h (Evol.refl l2))

theorem satisfiedQ_mono {q q' : List (InitQItem σ)} (h : Evol q q')
    (d : String) (hs : satisfiedQ q d = true) : satisfiedQ q' d = true := by
  induction h with
  | nil => exact hs
  | cons hab h ih =>
    rw [satisfiedQ_cons] at hs ⊢
    rcases Bool.or_eq_true _ _ |>.mp hs with h1 | h1
    · refine Bool.or_eq_true _ _ |>.mpr (Or.inl ?_)
      rw [decide_eq_true_eq] at h1 ⊢
      exact ⟨hab.1 ▸ h1.1, hab.2.2.2 h1.2⟩
    · exact Bool.or_eq_true _ _ |>.mpr (Or.inr (ih h1))

theorem Evol.labels {q q' : List (InitQItem σ)} (h : Evol q q') :
    labelsOf q = labelsOf q' := by
  induction h with
  | nil => rfl
  | cons hab h ih => simp [labelsOf] at ih ⊢; exact ⟨hab.1, ih⟩

theorem Evol.skel {q q' : List (InitQItem σ)} (h : Evol q q') :
    skelOf q = skelOf q' := by
  induction h with
  | nil => rfl
  | cons hab h ih => simp [skelOf] at ih ⊢; exact ⟨⟨hab.1, hab.2.2.1⟩, ih⟩

theorem Evol.mem_right {q q' : List (InitQItem σ)} (h : Evol q q')
    {it' : InitQItem σ} (hit : it' ∈ q') : ∃ it ∈ q, ItemEvol it it' := by
  induction h with
  | nil => cases hit
  | cons hab h ih =>
    rcases List.mem_cons.mp hit with h1 | h1
    · subst h1
      exact ⟨_, List.mem_cons_self _ _, hab⟩
    · obtain ⟨it, hmem, hev⟩ := ih h1
      exact ⟨it, List.mem_cons_of_mem _ hmem, hev⟩

theorem Evol.length {q q' : List (InitQItem σ)} (h : Evol q q') :
    q.length = q'.length := List.Forall₂.length_eq h

/-- Main pass invariant: under `GoodQ`, a pass only evolves the queue
(labels, actions and dependency lists fixed; `Satisfied` never abandoned)
and preserves `GoodQ` — whatever the pass outcome. -/
theorem onePass_good (pending : List (InitQItem σ)) :
    ∀ (processed : List (InitQItem σ)) (w : σ) (log : List String) (sat : Bool),
    GoodQ (processed ++ pending) →
    Evol (processed ++ pending) ((onePass processed pending w log sat).outQ) ∧
    GoodQ ((onePass processed pending w log sat).outQ) := by
  induction pending with
  | nil =>
    intro processed w log sat hg
    rw [onePass_nil]
    simp only [PassOut.outQ, List.append_nil]
    rw [List.append_nil] at hg
    exact ⟨Evol.refl processed, hg⟩
  | cons rqi rest ih =>
    intro processed w log sat hg
    rw [onePass_cons]
    by_cases hdeps : rqi.deps.all
        (fun d => satisfiedQ (processed ++ rqi :: rest) d) = true
    · rw [if_pos hdeps]
      have hdepsAll : ∀ d ∈ rqi.deps,
          satisfiedQ (processed ++ rqi :: rest) d = true := by
        intro d hd
        exact List.all_eq_true.mp hdeps d hd
      by_cases hrun : rqi.state = TryAgain ∨ rqi.state = UnRun
      · rw [runItem_invoke rqi w hrun]
        have hnotSat : ¬ rqi.state = Satisfied := by
          rcases hrun with h | h <;> simp [h]
        cases hr : (rqi.f w).2
        · -- action returned UnRun: the pass aborts with a defect
          refine ⟨Evol.replace (show ItemEvol rqi { rqi with state := UnRun } from
            ⟨rfl, rfl, rfl, fun h => absurd h hnotSat⟩), ?_⟩
          show GoodQ (processed ++ { rqi with state := UnRun } :: rest)
          refine GoodQ_replace hg rfl rfl (fun h => absurd h hnotSat) ?_
          intro h
          rcases h with h | h <;> exact absurd h (by simp)
        · -- action returned Satisfied
          have hQ1 : GoodQ ((processed ++ [{ rqi with state := Satisfied }]) ++ rest) := by
            rw [← List.append_cons]
            refine GoodQ_replace hg rfl rfl (fun _ => rfl) ?_
            intro _ d hd
            exact hdepsAll d hd
          obtain ⟨hev, hgood⟩ :=
            ih (processed ++ [{ rqi with state := Satisfied }]) (rqi.f w).1
              (log ++ [rqi.name]) sat hQ1
          rw [← List.append_cons] at hev
          exact ⟨evol_trans (Evol.replace
            (show ItemEvol rqi { rqi with state := Satisfied } from
              ⟨rfl, rfl, rfl, fun _ => rfl⟩)) hev, hgood⟩
        · -- action returned TryAgain
          have hQ1 : GoodQ ((processed ++ [{ rqi with state := TryAgain }]) ++ rest) := by
            rw [← List.append_cons]
            refine GoodQ_replace hg rfl rfl (fun h => absurd h hnotSat) ?_
            intro h
            rcases h with h | h <;> exact absurd h (by simp)
          obtain ⟨hev, hgood⟩ :=
            ih (processed ++ [{ rqi with state := TryAgain }]) (rqi.f w).1
              (log ++ [rqi.name]) false hQ1
          rw [← List.append_cons] at hev
          exact ⟨evol_trans (Evol.replace
            (show ItemEvol rqi { rqi with state := TryAgain } from
              ⟨rfl, rfl, rfl, fun h => absurd h hnotSat⟩)) hev, hgood⟩
        · -- action returned Stop
          refine ⟨Evol.replace (show ItemEvol rqi { rqi with state := Stop } from
            ⟨rfl, rfl, rfl, fun h => absurd h hnotSat⟩), ?_⟩
          show GoodQ (processed ++ { rqi with state := Stop } :: rest)
          refine GoodQ_replace hg rfl rfl (fun h => absurd h hnotSat) ?_
          intro _ d hd
          exact hdepsAll d hd
      · rw [runItem_skip rqi w hrun]
        push_neg at hrun
        rcases hst : rqi.state
        · exact absurd hst hrun.2
        · -- already Satisfied: skipped, unchanged
          have hQ1 : GoodQ ((processed ++ [rqi]) ++ rest) := by
            rw [← List.append_cons]
            exact hg
          obtain ⟨hev, hgood⟩ := ih (processed ++ [rqi]) w log sat hQ1
          rw [← List.append_cons] at hev
          exact ⟨hev, hgood⟩
        · exact absurd hst hrun.1
        · -- state Stop: the run returns it and the pass stops
          exact ⟨Evol.refl _, hg⟩
    · rw [if_neg hdeps]
      have hnotSat : ¬ (rqi.state = Satisfied ∨ rqi.state = Stop) := by
        intro hss
        refine hdeps (List.all_eq_true.mpr ?_)
        intro d hd
        exact hg rqi (List.mem_append.mpr (Or.inr (List.mem_cons_self _ _))) hss d hd
      have hQ1 : GoodQ ((processed ++ [{ rqi with state := TryAgain }]) ++ rest) := by
        rw [← List.append_cons]
        refine GoodQ_replace hg rfl rfl (fun h => absurd (Or.inl h) hnotSat) ?_
        intro h
        rcases h with h | h <;> exact absurd h (by simp)
      obtain ⟨hev, hgood⟩ := ih (processed ++ [{ rqi with state := TryAgain }]) w log false hQ1
      rw [← List.append_cons] at hev
      exact ⟨evol_trans (Evol.replace
        (show ItemEvol rqi { rqi with state := TryAgain } from
          ⟨rfl, rfl, rfl, fun h => absurd (Or.inl h) hnotSat⟩)) hev, hgood⟩

theorem skelOf_append (l1 l2 : List (InitQItem σ)) :
    skelOf (l1 ++ l2) = skelOf l1 ++ skelOf l2 := List.map_append _ _ _

theorem skelOf_cons (x : InitQItem σ) (l : List (InitQItem σ)) :
    skelOf (x :: l) = (x.name, x.deps) :: skelOf l := rfl

theorem labelsOf_eq_skel (q : List (InitQItem σ)) :
    labelsOf q = (skelOf q).map Prod.fst := by
  simp [labelsOf, skelOf]

/-- A pass never changes labels or dependency lists (only states and the
world), whatever the outcome. -/
theorem onePass_skel (pending : List (InitQItem σ)) :
    ∀ (processed : List (InitQItem σ)) (w : σ) (log : List String) (sat : Bool),
    skelOf ((onePass processed pending w log sat).outQ) =
      skelOf (processed ++ pending) := by
  induction pending with
  | nil =>
    intro processed w log sat
    rw [onePass_nil]
    simp [PassOut.outQ]
  | cons rqi rest ih =>
    intro processed w log sat
    rw [onePass_cons]
    by_cases hdeps : rqi.deps.all
        (fun d => satisfiedQ (processed ++ rqi :: rest) d) = true
    · rw [if_pos hdeps]
      by_cases hrun : rqi.state = TryAgain ∨ rqi.state = UnRun
      · rw [runItem_invoke rqi w hrun]
        cases hr : (rqi.f w).2
        · simp [PassOut.outQ, skelOf_append, skelOf_cons]
        · rw [ih]
          simp [skelOf_append, skelOf_cons]
        · rw [ih]
          simp [skelOf_append, skelOf_cons]
        · simp [PassOut.outQ, skelOf_append, skelOf_cons]
      · rw [runItem_skip rqi w hrun]
        push_neg at hrun
        rcases hst : rqi.state
        · exact absurd hst hrun.2
        · rw [ih]
          simp [skelOf_append, skelOf_cons]
        · exact absurd hst hrun.1
        · simp [PassOut.outQ, skelOf_append, skelOf_cons]
    · rw [if_neg hdeps]
      rw [ih]
      simp [skelOf_append, skelOf_cons]

/-- The pass loop never changes labels or dependency lists. -/
theorem processLoop_skel (fuel : Nat) :
    ∀ (u b : Bool) (q : List (InitQItem σ)) (w : σ) (log : List String)
      (pcount : Nat),
    skelOf ((processLoop u b q w log pcount fuel).q) = skelOf q := by
  induction fuel with
  | zero =>
    intro u b q w log pcount
    rw [processLoop_zero]
    by_cases hu : u = true
    · simp [hu]
    · by_cases hb : b = false <;> simp [hu, hb]
  | succ fuel ih =>
    intro u b q w log pcount
    cases hp : onePass [] q w log true with
    | ok q' w' log' sat =>
      have hskel : skelOf q' = skelOf q := by
        have := onePass_skel q [] w log true
        rw [hp] at this
        simpa [PassOut.outQ] using this
      by_cases hs : sat = true
      · subst hs
        simp only [processLoop_succ, hp, if_pos]
        exact hskel
      · rw [Bool.not_eq_true] at hs
        subst hs
        simp only [processLoop_succ, hp, Bool.false_eq_true, if_false]
        rw [ih u b q' w' log' (pcount + 1)]
        exact hskel
    | failed msg q' w' log' =>
      have hskel : skelOf q' = skelOf q := by
        have := onePass_skel q [] w log true
        rw [hp] at this
        simpa [PassOut.outQ] using this
      by_cases hb : b = true <;>
        simp only [processLoop_succ, hp, hb, Bool.false_eq_true, if_pos, if_false] <;>
        exact hskel
    | stopped q' w' log' =>
      have hskel : skelOf q' = skelOf q := by
        have := onePass_skel q [] w log true
        rw [hp] at this
        simpa [PassOut.outQ] using this
      simp only [processLoop_succ, hp]
      exact hskel

/-- Loop-level evolution invariant: under `GoodQ` the final queue of the
pass loop evolves from the initial one and still satisfies `GoodQ`. -/
theorem processLoop_good (fuel : Nat) :
    ∀ (u b : Bool) (q : List (InitQItem σ)) (w : σ) (log : List String)
      (pcount : Nat), GoodQ q →
    Evol q ((processLoop u b q w log pcount fuel).q) ∧
    GoodQ ((processLoop u b q w log pcount fuel).q) := by
  induction fuel with
  | zero =>
    intro u b q w log pcount hg
    rw [processLoop_zero]
    by_cases hu : u = true
    · simpa [hu] using ⟨Evol.refl q, hg⟩
    · by_cases hb : b = false <;> simpa [hu, hb] using ⟨Evol.refl q, hg⟩
  | succ fuel ih =>
    intro u b q w log pcount hg
    have hgq : GoodQ ([] ++ q) := hg
    obtain ⟨hev, hgood⟩ := onePass_good q [] w log true hgq
    cases hp : onePass [] q w log true with
    | ok q' w' log' sat =>
      rw [hp] at hev hgood
      simp only [PassOut.outQ] at hev hgood
      simp only [List.nil_append] at hev
      by_cases hs : sat = true
      · subst hs
        simp only [processLoop_succ, hp, if_pos]
        exact ⟨hev, hgood⟩
      · rw [Bool.not_eq_true] at hs
        subst hs
        simp only [processLoop_succ, hp, Bool.false_eq_true, if_false]
        obtain ⟨hev2, hgood2⟩ := ih u b q' w' log' (pcount + 1) hgood
        exact ⟨evol_trans hev hev2, hgood2⟩
    | failed msg q' w' log' =>
      rw [hp] at hev hgood
      simp only [PassOut.outQ] at hev hgood
      simp only [List.nil_append] at hev
      by_cases hb : b = true <;>
        simp only [processLoop_succ, hp, hb, Bool.false_eq_true, if_pos, if_false] <;>
        exact ⟨hev, hgood⟩
    | stopped q' w' log' =>
      rw [hp] at hev hgood
      simp only [PassOut.outQ] at hev hgood
      simp only [List.nil_append] at hev
      simp only [processLoop_succ, hp]
      exact ⟨hev, hgood⟩

/-- A successful pass loop leaves every record `Satisfied`. -/
theorem processLoop_ok_sat (fuel : Nat) :
    ∀ (u b : Bool) (q : List (InitQItem σ)) (w : σ) (log : List String)
      (pcount : Nat),
    (processLoop u b q w log pcount fuel).res = .ok →
    ∀ it ∈ (processLoop u b q w log pcount fuel).q, it.state = Satisfied := by
  induction fuel with
  | zero =>
    intro u b q w log pcount hres
    rw [processLoop_zero] at hres ⊢
    by_cases hu : u = true
    · rw [if_pos hu] at hres
      exact absurd hres (by simp)
    · rw [if_neg hu] at hres ⊢
      by_cases hb : b = false
      · rw [if_pos hb] at hres
        exact absurd hres (by simp)
      · rw [if_neg hb] at hres
        exact absurd hres (by simp)
  | succ fuel ih =>
    intro u b q w log pcount hres
    cases hp : onePass [] q w log true with
    | ok q' w' log' sat =>
      by_cases hs : sat = true
      · subst hs
        simp only [processLoop_succ, hp, if_pos] at hres ⊢
        obtain ⟨-, pend', hq', hpend⟩ := onePass_converged q [] w log true q' w' log' hp
        intro it hit
        exact hpend it (by simpa [hq'] using hit)
      · rw [Bool.not_eq_true] at hs
        subst hs
        simp only [processLoop_succ, hp, Bool.false_eq_true, if_false] at hres ⊢
        exact ih u b q' w' log' (pcount + 1) hres
    | failed msg q' w' log' =>
      by_cases hb : b = true <;>
        simp only [processLoop_succ, hp, hb, Bool.false_eq_true, if_pos, if_false] at hres <;>
        exact absurd hres (by simp)
    | stopped q' w' log' =>
      simp only [processLoop_succ, hp] at hres
      exact absurd hres (by simp)

/-- The duplicate-label scan only looks at labels. -/
theorem findDup_congr (q : List (InitQItem σ)) :
    ∀ (q' : List (InitQItem τ)), skelOf q = skelOf q' →
    ∀ seen, findDup seen q = findDup seen q' := by
  induction q with
  | nil =>
    intro q' h seen
    cases q' with
    | nil => rfl
    | cons y l' => exact absurd h (by simp [skelOf])
  | cons x l ih =>
    intro q' h seen
    cases q' with
    | nil => exact absurd h (by simp [skelOf])
    | cons y l' =>
      rw [skelOf_cons, skelOf_cons] at h
      obtain ⟨hxy, hll⟩ := List.cons.injEq _ _ _ _ ▸ h
      have hname : x.name = y.name := congrArg Prod.fst hxy
      unfold findDup
      rw [hname, ih l' hll]

/-- The dangling-dependency scan only looks at labels and dependency
lists. -/
theorem findDangling_congr (q : List (InitQItem σ)) :
    ∀ (q' : List (InitQItem τ)), skelOf q = skelOf q' →
    ∀ labels, findDangling labels q = findDangling labels q' := by
  induction q with
  | nil =>
    intro q' h labels
    cases q' with
    | nil => rfl
    | cons y l' => exact absurd h (by simp [skelOf])
  | cons x l ih =>
    intro q' h labels
    cases q' with
    | nil => exact absurd h (by simp [skelOf])
    | cons y l' =>
      rw [skelOf_cons, skelOf_cons] at h
      obtain ⟨hxy, hll⟩ := List.cons.injEq _ _ _ _ ▸ h
      have hname : x.name = y.name := congrArg Prod.fst hxy
      have hdeps : x.deps = y.deps := congrArg Prod.snd hxy
      unfold findDangling
      rw [hname, hdeps, ih l' hll]

theorem contains_true_iff_mem {l : List String} {d : String} :
    l.contains d = true ↔ d ∈ l := by
  induction l with
  | nil => simp
  | cons x l ih => simp [List.contains_cons, ih]

/-- The dangling scan accepts exactly when every dependency label has a
matching task label. -/
theorem findDangling_eq_none_iff (labels : List String)
    (q : List (InitQItem σ)) :
    findDangling labels q = none ↔
      ∀ it ∈ q, ∀ d ∈ it.deps, d ∈ labels := by
  induction q with
  | nil => simp [findDangling]
  | cons x l ih =>
    unfold findDangling
    cases hf : x.deps.find? (fun d => !(labels.contains d)) with
    | some d =>
      constructor
      · intro h
        cases h
      · intro h
        have hd : d ∈ x.deps := List.mem_of_find?_eq_some hf
        have hnd := List.find?_some hf
        have hmem : d ∈ labels := h x (List.mem_cons_self _ _) d hd
        rw [Bool.not_eq_true'] at hnd
        rw [← contains_true_iff_mem] at hmem
        rw [hmem] at hnd
        cases hnd
    | none =>
      rw [ih]
      constructor
      · intro h it hit d hd
        rcases List.mem_cons.mp hit with h1 | h1
        · subst h1
          have := List.find?_eq_none.mp hf d hd
          rw [Bool.not_eq_true', Bool.not_eq_false] at this
          exact contains_true_iff_mem.mp this
        · exact h it h1 d hd
      · intro h it hit d hd
        exact h it (List.mem_cons_of_mem _ hit) d hd

/-- With pairwise-distinct labels (none of them seen before), the duplicate
scan accepts. -/
theorem findDup_eq_none (q : List (InitQItem σ)) :
    ∀ seen, (labelsOf q).Nodup → (∀ l ∈ labelsOf q, l ∉ seen) →
    findDup seen q = none := by
  induction q with
  | nil => intro seen _ _; rfl
  | cons x l ih =>
    intro seen hnd hseen
    have hnd2 := hnd
    rw [labelsOf, List.map_cons, List.nodup_cons] at hnd2
    unfold findDup
    rw [if_neg (hseen x.name (by simp [labelsOf]))]
    refine ih (seen ++ [x.name]) hnd2.2 ?_
    intro lab hlab
    simp only [List.mem_append, List.mem_singleton]
    rintro (h1 | h1)
    · refine hseen lab ?_ h1
      rw [labelsOf, List.map_cons]
      exact List.mem_cons_of_mem _ hlab
    · subst h1
      exact hnd2.1 hlab

/-- In an all-`Satisfied` queue every present label is satisfied. -/
theorem satisfiedQ_of_all_sat {q : List (InitQItem σ)} {d : String}
    (hall : ∀ it ∈ q, it.state = Satisfied) (hd : d ∈ labelsOf q) :
    satisfiedQ q d = true := by
  obtain ⟨it, hit, hname⟩ := List.mem_map.mp hd
  exact satisfiedQ_iff.mpr ⟨it, hit, hname, hall it hit⟩

/-- Walking an already-`Satisfied` block of the queue changes nothing: each
of its records is skipped. -/
theorem onePass_sat_prefix (l : List (InitQItem σ)) :
    ∀ (processed rest2 : List (InitQItem σ)) (w : σ) (log : List String)
      (sat : Bool),
    (∀ it ∈ l, it.state = Satisfied) →
    (∀ it ∈ l, ∀ d ∈ it.deps, satisfiedQ (processed ++ (l ++ rest2)) d = true) →
    onePass processed (l ++ rest2) w log sat =
      onePass (processed ++ l) rest2 w log sat := by
  induction l with
  | nil =>
    intro processed rest2 w log sat _ _
    rw [List.append_nil]
    rfl
  | cons x l ih =>
    intro processed rest2 w log sat hall hdeps
    have hx : x.state = Satisfied := hall x (List.mem_cons_self _ _)
    have hxdeps : x.deps.all
        (fun d => satisfiedQ (processed ++ x :: (l ++ rest2)) d) = true := by
      refine List.all_eq_true.mpr ?_
      intro d hd
      exact hdeps x (List.mem_cons_self _ _) d hd
    rw [List.cons_append, onePass_cons, if_pos hxdeps,
      runItem_skip x w (by simp [hx]), hx]
    show onePass (processed ++ [x]) (l ++ rest2) w log sat = _
    rw [ih (processed ++ [x]) rest2 w log sat
      (fun it hit => hall it (List.mem_cons_of_mem _ hit))
      (fun it hit d hd => by
        rw [← List.append_cons]
        exact hdeps it (List.mem_cons_of_mem _ hit) d hd),
      List.append_assoc]
    rfl

/-- When `process` does not surface a registration/validation defect
(no generic error, no `log.Fatal`), the sticky error is empty, both
validation scans accept, and `process` is exactly the pass loop with a
budget of `N + 1` passes. -/
theorem process_valid (rq : InitQState σ) (u b : Bool) (w : σ)
    (h1 : ∀ m, (process rq u b w).res ≠ .err (.generic m))
    (h2 : ∀ m, (process rq u b w).res ≠ .fatal m) :
    rq.addErr.length = 0 ∧ findDup [] rq.q = none ∧
    findDangling (labelsOf rq.q) rq.q = none ∧
    process rq u b w = processLoop u b rq.q w [] 0 (rq.q.length + 1) := by
  by_cases ha : rq.addErr.length > 0
  · exfalso
    refine h1 rq.addErr ?_
    unfold process
    rw [if_pos ha]
  · cases hdup : findDup [] rq.q with
    | some nm =>
      exfalso
      by_cases hb : b = true
      · refine h1 ("The " ++ nm ++ " task label was used more than once.") ?_
        unfold process
        rw [if_neg ha]
        simp only [hdup, hb, if_pos]
      · refine h2 ("The " ++ nm ++ " task label was used more than once.") ?_
        unfold process
        rw [if_neg ha]
        rw [Bool.not_eq_true] at hb
        simp only [hdup, hb, Bool.false_eq_true, if_false]
    | none =>
      cases hdang : findDangling (labelsOf rq.q) rq.q with
      | some td =>
        exfalso
        by_cases hb : b = true
        · refine h1 ("Task " ++ td.1 ++ " has dependency " ++ td.2 ++
            " that does not match any existing task.") ?_
          unfold process
          rw [if_neg ha]
          simp only [hdup, hdang, hb, if_pos]
        · refine h2 ("Task " ++ td.1 ++ " has dependency " ++ td.2 ++
            " that does not match any existing task.") ?_
          unfold process
          rw [if_neg ha]
          rw [Bool.not_eq_true] at hb
          simp only [hdup, hdang, hb, Bool.false_eq_true, if_false]
      | none =>
        refine ⟨by omega, rfl, rfl, ?_⟩
        unfold process
        rw [if_neg ha]
        simp only [hdup, hdang]

/-- When the sticky error is empty and both validation scans accept,
`process` is the pass loop. -/
theorem process_eq_loop (rq : InitQState σ) (u b : Bool) (w : σ)
    (ha : rq.addErr.length = 0) (hdup : findDup [] rq.q = none)
    (hdang : findDangling (labelsOf rq.q) rq.q = none) :
    process rq u b w = processLoop u b rq.q w [] 0 (rq.q.length + 1) := by
  unfold process
  rw [if_neg (by omega)]
  simp only [hdup, hdang]

/-- C9: re-invoking resolve on an already-converged Resolver (one on which a
previous resolve succeeded, leaving every registered record in the `Done`
state) immediately succeeds again — one confirmation pass, no action
invoked, queue and world untouched — from either entry point and under
either toggle. -/
theorem C9_reresolve_converged {σ : Type} (rq : InitQState σ) (u b : Bool)
    (w : σ) (u' b' : Bool) (w' : σ)
    (hok : (process rq u b w).res = .ok) :
    process ⟨(process rq u b w).q, rq.addErr⟩ u' b' w' =
      ⟨.ok, (process rq u b w).q, w', [], 1⟩ := by
  have h1 : ∀ m, (process rq u b w).res ≠ .err (.generic m) := by
    intro m h
    rw [hok] at h
    exact absurd h (by simp)
  have h2 : ∀ m, (process rq u b w).res ≠ .fatal m := by
    intro m h
    rw [hok] at h
    exact absurd h (by simp)
  obtain ⟨ha, hdup, hdang, heq⟩ := process_valid rq u b w h1 h2
  have hallsat : ∀ it ∈ (process rq u b w).q, it.state = Satisfied := by
    have := processLoop_ok_sat (rq.q.length + 1) u b rq.q w [] 0
    rw [← heq] at this
    exact this hok
  have hskel : skelOf (process rq u b w).q = skelOf rq.q := by
    rw [heq]
    exact processLoop_skel _ u b rq.q w [] 0
  have hdup2 : findDup [] (process rq u b w).q = none := by
    rw [findDup_congr _ rq.q hskel []]
    exact hdup
  have hlab2 : labelsOf (process rq u b w).q = labelsOf rq.q := by
    rw [labelsOf_eq_skel, labelsOf_eq_skel, hskel]
  have hdang2 : findDangling (labelsOf (process rq u b w).q)
      (process rq u b w).q = none := by
    rw [hlab2, findDangling_congr _ rq.q hskel (labelsOf rq.q)]
    exact hdang
  have hdeps2 : ∀ it ∈ (process rq u b w).q, ∀ d ∈ it.deps,
      d ∈ labelsOf (process rq u b w).q :=
    (findDangling_eq_none_iff _ _).mp hdang2
  rw [process_eq_loop ⟨(process rq u b w).q, rq.addErr⟩ u' b' w' ha hdup2 hdang2]
  show processLoop u' b' (process rq u b w).q w' [] 0
    ((process rq u b w).q.length + 1) = _
  rw [processLoop_succ]
  have hpass : onePass [] (process rq u b w).q w' [] true =
      .ok (process rq u b w).q w' [] true := by
    have := onePass_sat_prefix (process rq u b w).q [] [] w' [] true hallsat
      (fun it hit d hd => by
        rw [List.nil_append, List.append_nil]
        exact satisfiedQ_of_all_sat hallsat (hdeps2 it hit d hd))
    rw [List.append_nil] at this
    rw [this, onePass_nil, List.nil_append]
  rw [hpass]
  rfl

/-- Witness for C9 at a concrete converged two-task queue. -/
theorem C9_reresolve_converged_witness :
    (process convQ false false ()).res = .ok ∧
    process ⟨(process convQ false false ()).q, convQ.addErr⟩ true true () =
      ⟨.ok, (process convQ false false ()).q, (), [], 1⟩ :=
  ⟨by decide, C9_reresolve_converged convQ false false () true true () (by decide)⟩

/-- C8: once a record's stored state is `Done` (Satisfied), the `run`
operation returns `Done` without invoking the action — the record and the
world are untouched and the ghost invocation flag is off; moreover, across
any pass (under the reachability invariant `GoodQ`) a `Satisfied` record
stays `Satisfied`, so no later pass can invoke it either. -/
theorem C8_done_idempotent {σ : Type} :
    (∀ (rqi : InitQItem σ) (w : σ), rqi.state = Satisfied →
      runItem rqi w = (rqi, w, Satisfied, false)) ∧
    (∀ (q : List (InitQItem σ)) (w : σ) (log : List String) (sat : Bool),
      GoodQ q →
      List.Forall₂ (fun a b => a.state = Satisfied → b.state = Satisfied)
        q ((onePass [] q w log sat).outQ)) := by
  constructor
  · intro rqi w h
    rw [runItem_skip rqi w (by simp [h]), h]
  · intro q w log sat hg
    have hgq : GoodQ ([] ++ q) := hg
    have := (onePass_good q [] w log sat hgq).1
    exact List.Forall₂.imp (fun a b hab => hab.2.2.2) this

/-- Witness for C8 at a concrete `Satisfied` record. -/
theorem C8_done_idempotent_witness :
    runItem { f := constU Satisfied, name := "x", state := Satisfied,
              deps := ([] : List String) } () =
    ({ f := constU Satisfied, name := "x", state := Satisfied, deps := [] },
      (), Satisfied, false) :=
  (C8_done_idempotent.1 _ () rfl)

/-- C10: `run` invokes the action exactly when the stored state is `NotRun`
or `Retry`; a `Stopped` record, exactly like a `Done` one, is returned
as-is without invocation.  Consequently, re-invoking resolve on a fresh
Resolver whose previous resolve returned the stop error — with every record
preceding the stopped one `Done` — returns the stop error again, in one
pass, with no action invoked and the queue unchanged. -/
theorem C10_stopped_never_reinvoked {σ : Type} :
    (∀ (rqi : InitQItem σ) (w : σ),
      ((runItem rqi w).2.2.2 = true ↔
        (rqi.state = UnRun ∨ rqi.state = TryAgain))) ∧
    (∀ (rqi : InitQItem σ) (w : σ), rqi.state = Stop →
      runItem rqi w = (rqi, w, Stop, false)) ∧
    (∀ (rq : InitQState σ) (u b : Bool) (w : σ) (u' b' : Bool) (w' : σ)
      (pre post : List (InitQItem σ)) (x : InitQItem σ),
      (∀ it ∈ rq.q, it.state = UnRun) →
      (process rq u b w).res = .err .qStopped →
      (process rq u b w).q = pre ++ x :: post →
      (∀ it ∈ pre, it.state = Satisfied) →
      x.state = Stop →
      process ⟨(process rq u b w).q, rq.addErr⟩ u' b' w' =
        ⟨.err .qStopped, (process rq u b w).q, w', [], 1⟩) := by
  refine ⟨?_, ?_, ?_⟩
  · intro rqi w
    by_cases h : rqi.state = TryAgain ∨ rqi.state = UnRun
    · rw [runItem_invoke rqi w h]
      simpa using h.symm
    · rw [runItem_skip rqi w h]
      push_neg at h
      constructor
      · intro h1
        cases h1
      · intro h1
        rcases h1 with h1 | h1
        · exact absurd h1 h.2
        · exact absurd h1 h.1
  · intro rqi w h
    rw [runItem_skip rqi w (by simp [h]), h]
  · intro rq u b w u' b' w' pre post x hfresh hstop hdecomp hpre hx
    have h1 : ∀ m, (process rq u b w).res ≠ .err (.generic m) := by
      intro m h
      rw [hstop] at h
      exact absurd h (by simp)
    have h2 : ∀ m, (process rq u b w).res ≠ .fatal m := by
      intro m h
      rw [hstop] at h
      exact absurd h (by simp)
    obtain ⟨ha, hdup, hdang, heq⟩ := process_valid rq u b w h1 h2
    have hg0 : GoodQ rq.q := by
      intro it hit hss d hd
      rw [hfresh it hit] at hss
      rcases hss with hss | hss <;> cases hss
    have hgout : GoodQ (process rq u b w).q := by
      rw [heq]
      exact (processLoop_good _ u b rq.q w [] 0 hg0).2
    have hskel : skelOf (process rq u b w).q = skelOf rq.q := by
      rw [heq]
      exact processLoop_skel _ u b rq.q w [] 0
    have hdup2 : findDup [] (process rq u b w).q = none := by
      rw [findDup_congr _ rq.q hskel []]
      exact hdup
    have hlab2 : labelsOf (process rq u b w).q = labelsOf rq.q := by
      rw [labelsOf_eq_skel, labelsOf_eq_skel, hskel]
    have hdang2 : findDangling (labelsOf (process rq u b w).q)
        (process rq u b w).q = none := by
      rw [hlab2, findDangling_congr _ rq.q hskel (labelsOf rq.q)]
      exact hdang
    rw [process_eq_loop ⟨(process rq u b w).q, rq.addErr⟩ u' b' w' ha hdup2 hdang2]
    show processLoop u' b' (process rq u b w).q w' [] 0
      ((process rq u b w).q.length + 1) = _
    rw [processLoop_succ]
    have hgood' : GoodQ (pre ++ x :: post) := by
      rw [← hdecomp]
      exact hgout
    have hwalk := onePass_sat_prefix pre ([] : List (InitQItem σ)) (x :: post)
      w' [] true hpre
      (fun it hit d hd => by
        have hmem : it ∈ pre ++ x :: post :=
          List.mem_append.mpr (Or.inl hit)
        have := hgood' it hmem (Or.inl (hpre it hit)) d hd
        simpa [List.nil_append] using this)
    have hcond : x.deps.all
        (fun d => satisfiedQ (([] ++ pre) ++ x :: post) d) = true := by
      refine List.all_eq_true.mpr ?_
      intro d hd
      have hmem : x ∈ pre ++ x :: post :=
        List.mem_append.mpr (Or.inr (List.mem_cons_self _ _))
      have := hgood' x hmem (Or.inr hx) d hd
      simpa [List.nil_append] using this
    have hpass : onePass [] (process rq u b w).q w' [] true =
        .stopped (process rq u b w).q w' [] := by
      rw [hdecomp]
      rw [show (onePass [] (pre ++ x :: post) w' [] true : PassOut σ) =
        onePass ([] ++ pre) (x :: post) w' [] true from hwalk]
      rw [onePass_cons, if_pos hcond, runItem_skip x w' (by simp [hx]), hx]
      rfl
    rw [hpass]

/-- Witness for C10 at a concrete stopped two-task queue. -/
theorem C10_stopped_never_reinvoked_witness :
    process ⟨(process stopPairQ false false ()).q, stopPairQ.addErr⟩
        false false () =
      ⟨.err .qStopped, (process stopPairQ false false ()).q, (), [], 1⟩ :=
  C10_stopped_never_reinvoked.2.2 stopPairQ false false () false false ()
    [{ f := constU Satisfied, name := "A", state := Satisfied, deps := [] }] []
    { f := constU Stop, name := "S", state := Stop, deps := [] }
    (by decide) (by decide) rfl (by decide) rfl

/-! ## Registration-error bookkeeping -/

theorem getLast?_getD_cons : ∀ (l : List String) (b x : String),
    ((b :: l).getLast?).getD x = (l.getLast?).getD b := by
  intro l
  induction l with
  | nil => intro b x; rfl
  | cons c l ih =>
    intro b x
    rw [List.getLast?_cons_cons, ih c x, ih c b]

/-- With the toggle enabled, `Add` always returns (never halts) and the new
sticky error is the rejection message when the call is rejected, unchanged
otherwise. -/
theorem Add_true_ok {σ : Type} (rq : InitQState σ)
    (r : String × Option (σ → σ × ReqResult) × List String) :
    ∃ rq₁, Add rq true r.1 r.2.1 r.2.2 = .ok rq₁ ∧
      rq₁.addErr = ((rejMsg σ r).getD rq.addErr) := by
  by_cases h1 : r.1.length = 0
  · refine ⟨{ rq with addErr := "Add called with an empty name label." }, ?_, ?_⟩
    · simp [Add, h1]
    · simp [rejMsg, h1]
  · cases hf : r.2.1 with
    | none =>
      refine ⟨{ rq with
        addErr := "Add(" ++ r.1 ++ ") called with a nil function." }, ?_, ?_⟩
      · simp [Add, h1]
      · simp [rejMsg, h1, hf]
    | some fn =>
      by_cases hmem : r.1 ∈ r.2.2
      · refine ⟨{ rq with
          addErr := "Add(" ++ r.1 ++ ") called with a self-referencing dependency." },
          ?_, ?_⟩
        · simp [Add, h1, hmem]
        · simp [rejMsg, h1, hf, hmem]
      · refine ⟨{ rq with q := rq.q ++ [newInitQItem fn r.1 r.2.2] }, ?_, ?_⟩
        · simp [Add, h1, hmem]
        · simp [rejMsg, h1, hf, hmem]

/-- Every rejection message is non-empty. -/
theorem rejMsg_length_pos {σ : Type}
    {r : String × Option (σ → σ × ReqResult) × List String} {m : String}
    (h : rejMsg σ r = some m) : 0 < m.length := by
  unfold rejMsg at h
  by_cases h1 : r.1.length = 0
  · rw [if_pos h1] at h
    cases h
    decide
  · rw [if_neg h1] at h
    cases hf : r.2.1 <;> rw [hf] at h
    · cases h
      rw [String.length_append, String.length_append]
      have : ("Add(".length) = 4 := rfl
      omega
    · by_cases hmem : r.1 ∈ r.2.2
      · rw [if_pos hmem] at h
        cases h
        rw [String.length_append, String.length_append]
        have : ("Add(".length) = 4 := rfl
        omega
      · rw [if_neg hmem] at h
        cases h

/-- Folding registrations with the toggle enabled: the final sticky error is
the message of the last rejected call (or the initial value when none was
rejected).  The sticky flag is overwritten on each rejection — the last
defect wins. -/
theorem addAll_addErr {σ : Type}
    (regs : List (String × Option (σ → σ × ReqResult) × List String)) :
    ∀ (rq : InitQState σ), ∃ q',
      addAll true (.ok rq) regs =
        .ok { q := q',
              addErr := ((regs.filterMap (rejMsg σ)).getLast?).getD rq.addErr } := by
  induction regs with
  | nil =>
    intro rq
    exact ⟨rq.q, rfl⟩
  | cons r regs ih =>
    intro rq
    obtain ⟨rq₁, hAdd, haddErr⟩ := Add_true_ok rq r
    obtain ⟨q', hrest⟩ := ih rq₁
    refine ⟨q', ?_⟩
    have hstep : addAll true (.ok rq) (r :: regs) =
        addAll true (Add rq true r.1 r.2.1 r.2.2) regs := rfl
    rw [hstep, hAdd, hrest]
    cases hr : rejMsg σ r with
    | none =>
      rw [List.filterMap_cons_none hr]
      rw [hr] at haddErr
      simp only [Option.getD_none] at haddErr
      rw [haddErr]
    | some m =>
      rw [List.filterMap_cons_some hr]
      rw [hr] at haddErr
      simp only [Option.getD_some] at haddErr
      rw [haddErr, getLast?_getD_cons]

/-! ## Claims -/

/-- C1 (counterexample): with the error-behaviour toggle enabled, after the
rejected sequence `Add("", f); Add("x", nil)` the defect surfaced at
resolution is the message of the *second* rejected call, not of the first —
refuting "first defect wins". -/
theorem C1_counterexample :
    (process badQ false true ()).res =
      .err (.generic "Add(x) called with a nil function.") ∧
    (process badQ true true ()).res =
      .err (.generic "Add(x) called with a nil function.") ∧
    "Add(x) called with a nil function." ≠
      "Add called with an empty name label." := by
  refine ⟨rfl, rfl, ?_⟩
  decide

/-- C1 (amended): registration keeps a resolver-wide sticky error flag in
which the *last* defect wins: for every sequence of `Add` calls with at
least one rejection, under the error-behaviour toggle, the defect message
surfaced when resolution is attempted (from either entry point) is that of
the last rejected `Add` call. -/
theorem C1_last_defect_wins {σ : Type} (u : Bool) (w : σ)
    (regs : List (String × Option (σ → σ × ReqResult) × List String))
    (m : String)
    (hlast : (regs.filterMap (rejMsg σ)).getLast? = some m) :
    ∃ rq, addAll true (.ok (NewInitQ σ)) regs = .ok rq ∧
      (process rq u true w).res = .err (.generic m) := by
  obtain ⟨q', hadd⟩ := addAll_addErr regs (NewInitQ σ)
  rw [hlast] at hadd
  refine ⟨_, hadd, ?_⟩
  have hmem : m ∈ regs.filterMap (rejMsg σ) := List.mem_of_getLast?_eq_some hlast
  obtain ⟨r, -, hr⟩ := List.mem_filterMap.mp hmem
  have hpos : 0 < m.length := rejMsg_length_pos hr
  unfold process
  rw [if_pos (by simpa using hpos)]
  rfl

/-- Witness for C1 (amended) at the two-rejection sequence. -/
theorem C1_last_defect_wins_witness :
    ∃ rq, addAll true (.ok (NewInitQ Unit)) badRegs = .ok rq ∧
      (process rq false true ()).res =
        .err (.generic "Add(x) called with a nil function.") :=
  C1_last_defect_wins false () badRegs
    "Add(x) called with a nil function." (by decide)

/-- C2 (counterexample): at the queue `[good1, unsat, good2]`, the `Process`
entry point under the enabled toggle exhausts the budget *without halting*
and returns the sentinel non-convergence error, which is not the structured
error exposing the unresolved list `["unsat"]` — refuting "every non-halting
outcome of either entry point exposes that list". -/
theorem C2_counterexample :
    (Process unsatQ true ()).res = .err .qUnsolvable ∧
    PErr.qUnsolvable ≠ .qUnresolvable (newQUnresolvable ["unsat"]) := by
  refine ⟨rfl, ?_⟩
  decide

/-- C2 (amended): when the pass budget is exhausted, the labels of every
record not in `Done` are collected; whenever resolution produces the
structured non-convergence error it came from the `TryProcess` entry point
and the error exposes exactly that label list; whenever it produces the
sentinel non-convergence error (which carries no list) it came from
`Process` with the toggle enabled; and the exhaustion handler of `Process`
with the toggle off is a halting assertion whose diagnostic embeds that same
list. -/
theorem C2_unresolved_reporting {σ : Type} (rq : InitQState σ) (u b : Bool)
    (w : σ) :
    (∀ e, (process rq u b w).res = .err (.qUnresolvable e) →
      u = true ∧ e.UnresolvedTasks =
        (((process rq u b w).q.filter
          fun it => !decide (it.state = Satisfied)).map (·.name))) ∧
    ((process rq u b w).res = .err .qUnsolvable → u = false ∧ b = true) ∧
    (∀ (q : List (InitQItem σ)) (w₀ : σ) (log : List String) (pcount : Nat),
      (∀ it ∈ q, it.state = TryAgain ∨ it.state = Satisfied) →
      processLoop false false q w₀ log pcount 0 =
        ⟨.fatal (exhaustMsg ((q.filter
            fun it => !decide (it.state = Satisfied)).map (·.name))),
          q, w₀, log, pcount⟩) := by
  refine ⟨?_, ?_, ?_⟩
  · intro e he
    by_cases ha : rq.addErr.length > 0
    · exfalso
      unfold process at he
      rw [if_pos ha] at he
      exact absurd he (by simp)
    · cases hdup : findDup [] rq.q with
      | some nm =>
        exfalso
        unfold process at he
        rw [if_neg ha] at he
        simp only [hdup] at he
        by_cases hb : b = true <;> simp [hb] at he
      | none =>
        cases hdang : findDangling (labelsOf rq.q) rq.q with
        | some td =>
          exfalso
          unfold process at he
          rw [if_neg ha] at he
          simp only [hdup, hdang] at he
          by_cases hb : b = true <;> simp [hb] at he
        | none =>
          have heq := process_eq_loop rq u b w (by omega) hdup hdang
          rw [heq] at he ⊢
          obtain ⟨hu, hunsat, hstates⟩ :=
            (processLoop_exhaust (rq.q.length + 1) u b rq.q w [] 0
              (Or.inr (by omega))).1 e he
          refine ⟨hu, ?_⟩
          show e.unsat = _
          rw [hunsat, remainingOf_eq_not_satisfied _ hstates]
  · intro he
    by_cases ha : rq.addErr.length > 0
    · unfold process at he
      rw [if_pos ha] at he
      exact absurd he (by simp)
    · cases hdup : findDup [] rq.q with
      | some nm =>
        unfold process at he
        rw [if_neg ha] at he
        simp only [hdup] at he
        by_cases hb : b = true <;> simp [hb] at he
      | none =>
        cases hdang : findDangling (labelsOf rq.q) rq.q with
        | some td =>
          unfold process at he
          rw [if_neg ha] at he
          simp only [hdup, hdang] at he
          by_cases hb : b = true <;> simp [hb] at he
        | none =>
          have heq := process_eq_loop rq u b w (by omega) hdup hdang
          rw [heq] at he
          exact (processLoop_exhaust (rq.q.length + 1) u b rq.q w [] 0
            (Or.inr (by omega))).2 he
  · intro q w₀ log pcount hstates
    rw [processLoop_zero]
    rw [if_neg (by simp), if_pos rfl, remainingOf_eq_not_satisfied _ hstates]

/-- Witness for C2 (amended) at the `[good1, unsat, good2]` queue. -/
theorem C2_unresolved_reporting_witness :
    true = true ∧
    (newQUnresolvable ["unsat"]).UnresolvedTasks =
      (((process unsatQ true false ()).q.filter
        fun it => !decide (it.state = Satisfied)).map (·.name)) :=
  (C2_unresolved_reporting unsatQ true false ()).1
    (newQUnresolvable ["unsat"]) (by decide)

/-- C3 (counterexample): under the default toggle value (off), a rejected
registration is *not* merely recorded — `Add` halts the process immediately
(`log.Fatal`), refuting "recorded internally rather than raised immediately
by default". -/
theorem C3_counterexample :
    BehaveUnresolvIsErrDefault = false ∧
    Add (NewInitQ Unit) BehaveUnresolvIsErrDefault ""
        (some (constU Satisfied)) [] =
      .fatal "Add called with an empty name label."
        { q := [], addErr := "Add called with an empty name label." } :=
  ⟨rfl, rfl⟩

/-- C3 (amended): the global toggle is off by default, and by default a
rejected registration (empty label, nil action, or self-referencing
dependency) is an immediate process-halting assertion; the deployment mode
in which the rejection is instead recorded internally (queue unchanged,
sticky error set) is the one selected by enabling the toggle. -/
theorem C3_default_is_fatal {σ : Type} :
    BehaveUnresolvIsErrDefault = false ∧
    (∀ (rq : InitQState σ) (name : String) (f : Option (σ → σ × ReqResult))
      (deps : List String),
      (name.length = 0 ∨ f = none ∨ name ∈ deps) →
      (∃ m rq', Add rq false name f deps = .fatal m rq') ∧
      (∃ rq', Add rq true name f deps = .ok rq' ∧ rq'.q = rq.q ∧
        0 < rq'.addErr.length)) := by
  refine ⟨rfl, ?_⟩
  intro rq name f deps hrej
  by_cases h1 : name.length = 0
  · constructor
    · exact ⟨"Add called with an empty name label.",
        { rq with addErr := "Add called with an empty name label." },
        by simp [Add, h1]⟩
    · refine ⟨{ rq with addErr := "Add called with an empty name label." },
        by simp [Add, h1], rfl, ?_⟩
      show 0 < ("Add called with an empty name label.").length
      decide
  · cases hf : f with
    | none =>
      constructor
      · exact ⟨"Add(" ++ name ++ ") called with a nil function.",
          { rq with addErr := "Add(" ++ name ++ ") called with a nil function." },
          by simp [Add, h1]⟩
      · refine ⟨{ rq with
          addErr := "Add(" ++ name ++ ") called with a nil function." },
          by simp [Add, h1], rfl, ?_⟩
        rw [String.length_append, String.length_append]
        have : ("Add(".length) = 4 := rfl
        omega
    | some fn =>
      have hmem : name ∈ deps := by
        subst hf
        rcases hrej with h | h | h
        · exact absurd h h1
        · exact absurd h (by simp)
        · exact h
      constructor
      · exact ⟨"Unable to add a self-referencing dependency.",
          { rq with
            addErr := "Add(" ++ name ++ ") called with a self-referencing dependency." },
          by simp [Add, h1, hmem]⟩
      · refine ⟨{ rq with
          addErr := "Add(" ++ name ++ ") called with a self-referencing dependency." },
          by simp [Add, h1, hmem], rfl, ?_⟩
        rw [String.length_append, String.length_append]
        have : ("Add(".length) = 4 := rfl
        omega

/-- Witness for C3 (amended) at the empty-label rejection. -/
theorem C3_default_is_fatal_witness :
    (∃ m rq', Add (NewInitQ Unit) false "" (some (constU Satisfied)) [] =
      .fatal m rq') ∧
    (∃ rq', Add (NewInitQ Unit) true "" (some (constU Satisfied)) [] =
      .ok rq' ∧ rq'.q = (NewInitQ Unit).q ∧ 0 < rq'.addErr.length) :=
  (C3_default_is_fatal.2 (NewInitQ Unit) "" (some (constU Satisfied)) []
    (Or.inl (by decide)))

/-- C4: at the queue `[A, B, Stopper, C, D]` (A, B report `Done`, Stopper
reports `Stopped`), resolution from either entry point under either toggle
setting stops during the first pass right after Stopper's action, returns
the distinguished stop error, and the invocation log is exactly
`[A, B, Stopper]` — the actions of C and D are never invoked. -/
theorem C4_stop_short_circuits :
    ((Process stopQ false ()).res = .err .qStopped ∧
      (Process stopQ false ()).log = ["A", "B", "Stopper"] ∧
      (Process stopQ false ()).passes = 1 ∧
      "C" ∉ (Process stopQ false ()).log ∧ "D" ∉ (Process stopQ false ()).log) ∧
    ((Process stopQ true ()).res = .err .qStopped ∧
      (Process stopQ true ()).log = ["A", "B", "Stopper"] ∧
      "C" ∉ (Process stopQ true ()).log ∧ "D" ∉ (Process stopQ true ()).log) ∧
    ((TryProcess stopQ false ()).res = .err .qStopped ∧
      (TryProcess stopQ false ()).log = ["A", "B", "Stopper"] ∧
      "C" ∉ (TryProcess stopQ false ()).log ∧
      "D" ∉ (TryProcess stopQ false ()).log) ∧
    ((TryProcess stopQ true ()).res = .err .qStopped ∧
      (TryProcess stopQ true ()).log = ["A", "B", "Stopper"] ∧
      "C" ∉ (TryProcess stopQ true ()).log ∧
      "D" ∉ (TryProcess stopQ true ()).log) := by
  decide

/-- C5: at the queue `[good1, unsat, good2]` the error-returning entry point
(`TryProcess`) exhausts the full pass budget (`N + 1 = 4` passes) and
returns the structured non-convergence error whose unresolved-task list is
exactly `["unsat"]` — under either toggle setting. -/
theorem C5_unsat_reported :
    (TryProcess unsatQ false ()).res =
      .err (.qUnresolvable (newQUnresolvable ["unsat"])) ∧
    (newQUnresolvable ["unsat"]).UnresolvedTasks = ["unsat"] ∧
    (TryProcess unsatQ false ()).passes = unsatQ.q.length + 1 ∧
    (TryProcess unsatQ true ()).res =
      .err (.qUnresolvable (newQUnresolvable ["unsat"])) ∧
    (TryProcess unsatQ true ()).passes = unsatQ.q.length + 1 := by
  decide

/-! ## The reversed worst-case chain -/

theorem chainName_inj : Function.Injective chainName := by
  intro i j h
  unfold chainName at h
  have := congrArg String.length h
  simpa [String.length, Nat.add_right_cancel_iff] using this

theorem chainQ_succ (c : Nat → Bool) (k : Nat) (u : ReqResult) (m : Nat) :
    chainQ c k u (m + 1) = chainItem c (stFun k u) m :: chainQ c k u m := by
  simp [chainQ, List.range_succ]

theorem mem_chainQ (c : Nat → Bool) (k : Nat) (u : ReqResult) {n j : Nat}
    (h : j < n) : chainItem c (stFun k u) j ∈ chainQ c k u n := by
  unfold chainQ
  exact List.mem_map_of_mem _ (by simpa using h)

theorem chainQ_mem_elim (c : Nat → Bool) (k : Nat) (u : ReqResult) {n : Nat}
    {it : InitQItem Nat} (h : it ∈ chainQ c k u n) :
    ∃ j, j < n ∧ it = chainItem c (stFun k u) j := by
  unfold chainQ at h
  obtain ⟨j, hj, rfl⟩ := List.mem_map.mp h
  exact ⟨j, by simpa using hj, rfl⟩

theorem chainItem_name (c : Nat → Bool) (st : Nat → ReqResult) (j : Nat) :
    (chainItem c st j).name = chainName j := rfl

theorem chainItem_state (c : Nat → Bool) (st : Nat → ReqResult) (j : Nat) :
    (chainItem c st j).state = st j := rfl

/-- Running chain task `j` when exactly the tasks below `j` are complete
(world `j`) marks it complete and reports `Satisfied` — in either style. -/
theorem chainAct_run_self (cb : Bool) (j : Nat) :
    chainAct cb j j = (j + 1, Satisfied) := by
  cases cb <;>
    simp [chainAct, Nat.max_eq_right (Nat.le_succ j)]

/-- Running chain task `j` in the detect-style when fewer than `j` tasks are
complete reports `TryAgain` and leaves the world alone. -/
theorem chainAct_run_blocked (j w : Nat) (h : w < j) :
    chainAct true j w = (w, TryAgain) := by
  simp [chainAct, Nat.not_le.mpr h]

/-- Tasks strictly below the boundary are `Satisfied` in the queue. -/
theorem satisfiedQ_chain_lt (c : Nat → Bool) (k : Nat) (u : ReqResult)
    {n j : Nat} (hj : j < k) (hn : j < n) (l : List (InitQItem Nat)) :
    satisfiedQ (l ++ chainQ c k u n) (chainName j) = true := by
  rw [satisfiedQ_append]
  refine Bool.or_eq_true _ _ |>.mpr (Or.inr ?_)
  refine satisfiedQ_iff.mpr ⟨chainItem c (stFun k u) j, mem_chainQ c k u hn, rfl, ?_⟩
  simp [chainItem_state, stFun, hj]

/-- Tasks at or above the boundary are not satisfied anywhere in the working
queue (the already-processed prefix holds no satisfied record either). -/
theorem satisfiedQ_chain_ge (c : Nat → Bool) (k : Nat) (u : ReqResult)
    (hu : u = UnRun ∨ u = TryAgain) {n j : Nat} (hj : k ≤ j)
    (l : List (InitQItem Nat)) (hl : ∀ it ∈ l, it.state ≠ Satisfied) :
    satisfiedQ (l ++ chainQ c k u n) (chainName j) = false := by
  rw [← Bool.not_eq_true]
  intro h
  obtain ⟨it, hit, hname, hsat⟩ := satisfiedQ_iff.mp h
  rcases List.mem_append.mp hit with h1 | h1
  · exact hl it h1 hsat
  · obtain ⟨i, hi, rfl⟩ := chainQ_mem_elim c k u h1
    have : i = j := chainName_inj hname
    subst this
    rw [chainItem_state, stFun, if_neg (by omega)] at hsat
    rcases hu with hu | hu <;> rw [hu] at hsat <;> cases hsat

theorem stFun_lt {k j : Nat} (u : ReqResult) (h : j < k) :
    stFun k u j = Satisfied := by simp [stFun, h]

theorem stFun_ge {k j : Nat} (u : ReqResult) (h : k ≤ j) :
    stFun k u j = u := by simp [stFun, Nat.not_lt.mpr h]

theorem chainQ_congr (c : Nat → Bool) {k k' : Nat} {u u' : ReqResult}
    {n : Nat} (h : ∀ j, j < n → stFun k u j = stFun k' u' j) :
    chainQ c k u n = chainQ c k' u' n := by
  unfold chainQ
  refine List.map_congr_left ?_
  intro j hj
  have hjn : j < n := by simpa using hj
  unfold chainItem
  rw [h j hjn]

/-- One pass over the reversed chain whose head is the next runnable task
(boundary `k` at the top of the pending list): the head runs and completes,
everything below it is skipped, the convergence flag survives. -/
theorem chain_pass_base (c : Nat → Bool) (k : Nat) (u : ReqResult)
    (hu : u = UnRun ∨ u = TryAgain) :
    ∀ (processed : List (InitQItem Nat)) (log : List String) (sat : Bool),
    ∃ log', onePass processed (chainQ c k u (k + 1)) k log sat =
      .ok (processed ++ chainQ c (k + 1) TryAgain (k + 1)) (k + 1) log' sat := by
  intro processed log sat
  refine ⟨log ++ [chainName k], ?_⟩
  have hdeps : (chainItem c (stFun k u) k).deps.all
      (fun d => satisfiedQ
        (processed ++ chainItem c (stFun k u) k :: chainQ c k u k) d) = true := by
    show (chainDeps (c k) k).all _ = true
    cases hck : c k
    · by_cases hk : k = 0
      · simp [chainDeps, hk]
      · unfold chainDeps
        rw [if_neg (by simp), if_neg hk]
        rw [List.all_cons, List.all_nil, Bool.and_true]
        rw [List.append_cons]
        exact satisfiedQ_chain_lt c k u (by omega) (by omega) _
    · rfl
  have hst : (chainItem c (stFun k u) k).state = u := by
    rw [chainItem_state]
    exact stFun_ge u (Nat.le_refl k)
  have hrun : (chainItem c (stFun k u) k).state = TryAgain ∨
      (chainItem c (stFun k u) k).state = UnRun := by
    rw [hst]
    rcases hu with h | h
    · exact Or.inr h
    · exact Or.inl h
  have hact : (chainItem c (stFun k u) k).f k = (k + 1, Satisfied) :=
    chainAct_run_self (c k) k
  rw [chainQ_succ, onePass_cons, if_pos hdeps, runItem_invoke _ k hrun, hact]
  show onePass (processed ++ [{ chainItem c (stFun k u) k with state := Satisfied }])
      (chainQ c k u k) (k + 1) (log ++ [chainName k]) sat = _
  have hitem : ({ chainItem c (stFun k u) k with state := Satisfied }
      : InitQItem Nat) = chainItem c (stFun (k + 1) TryAgain) k := by
    simp only [chainItem]
    rw [stFun_lt TryAgain (Nat.lt_succ_self k)]
  have hq : chainQ c k u k = chainQ c (k + 1) TryAgain k := by
    refine chainQ_congr c ?_
    intro j hj
    rw [stFun_lt u hj, stFun_lt TryAgain (by omega)]
  have hwalk := onePass_sat_prefix (chainQ c k u k)
    (processed ++ [{ chainItem c (stFun k u) k with state := Satisfied }]) []
    (k + 1) (log ++ [chainName k]) sat
    (fun it hit => by
      obtain ⟨j, hj, rfl⟩ := chainQ_mem_elim c k u hit
      rw [chainItem_state]
      exact stFun_lt u hj)
    (fun it hit d hd => by
      obtain ⟨j, hj, rfl⟩ := chainQ_mem_elim c k u hit
      have : d ∈ chainDeps (c j) j := hd
      rcases hcj : c j with hcj' | hcj'
      all_goals rw [hcj] at this
      · unfold chainDeps at this
        rw [if_neg (by simp)] at this
        by_cases hj0 : j = 0
        · rw [if_pos hj0] at this
          cases this
        · rw [if_neg hj0] at this
          rcases List.mem_singleton.mp this with rfl
          rw [List.append_nil]
          exact satisfiedQ_chain_lt c k u (by omega) (by omega) _
      · cases this)
  rw [List.append_nil] at hwalk
  rw [hwalk, onePass_nil, List.append_assoc, List.singleton_append, hitem, hq,
    ← chainQ_succ]

/-- One full pass over the reversed chain with boundary `k`: every task above
`k` is re-marked `TryAgain` (blocked or detecting an incomplete
predecessor), task `k` completes, tasks below are skipped; the pass reports
convergence only when `k` was the topmost task. -/
theorem chain_pass (c : Nat → Bool) (k : Nat) (u : ReqResult)
    (hu : u = UnRun ∨ u = TryAgain) :
    ∀ (m : Nat), k ≤ m →
    ∀ (processed : List (InitQItem Nat)) (log : List String) (sat : Bool),
    (∀ it ∈ processed, it.state ≠ Satisfied) →
    ∃ log', onePass processed (chainQ c k u (m + 1)) k log sat =
      .ok (processed ++ chainQ c (k + 1) TryAgain (m + 1)) (k + 1) log'
        (sat && decide (m = k)) := by
  intro m
  induction m with
  | zero =>
    intro hk processed log sat _
    have hk0 : k = 0 := Nat.le_zero.mp hk
    subst hk0
    obtain ⟨log', h⟩ := chain_pass_base c 0 u hu processed log sat
    refine ⟨log', ?_⟩
    rw [h]
    simp
  | succ m ih =>
    intro hk processed log sat hproc
    by_cases hkm : k = m + 1
    · subst hkm
      obtain ⟨log', h⟩ := chain_pass_base c (m + 1) u hu processed log sat
      refine ⟨log', ?_⟩
      rw [h]
      simp
    · have hk' : k ≤ m := by omega
      have hsatflag : (sat && decide (m + 1 = k)) = false := by
        rw [decide_eq_false (by omega)]
        exact Bool.and_false sat
      have hitemTA : ({ chainItem c (stFun k u) (m + 1) with state := TryAgain }
          : InitQItem Nat) = chainItem c (stFun (k + 1) TryAgain) (m + 1) := by
        simp only [chainItem]
        rw [stFun_ge TryAgain (by omega)]
      have hstate : (chainItem c (stFun k u) (m + 1)).state = u := by
        rw [chainItem_state]
        exact stFun_ge u (by omega)
      have hproc' : ∀ it ∈ processed ++
          [{ chainItem c (stFun k u) (m + 1) with state := TryAgain }],
          it.state ≠ Satisfied := by
        intro it hit
        rcases List.mem_append.mp hit with h1 | h1
        · exact hproc it h1
        · rcases List.mem_singleton.mp h1 with rfl
          intro hcontra
          cases hcontra
      rw [chainQ_succ, onePass_cons]
      cases hcm : c (m + 1)
      · -- explicit-dependency style: blocked on the predecessor
        have hdeps : ¬ ((chainItem c (stFun k u) (m + 1)).deps.all
            (fun d => satisfiedQ (processed ++
              chainItem c (stFun k u) (m + 1) :: chainQ c k u (m + 1)) d) = true) := by
          show ¬ ((chainDeps (c (m + 1)) (m + 1)).all _ = true)
          rw [hcm]
          unfold chainDeps
          rw [if_neg (by simp), if_neg (by omega)]
          rw [List.all_cons, List.all_nil, Bool.and_true]
          rw [List.append_cons]
          simp only [Nat.add_sub_cancel]
          rw [satisfiedQ_chain_ge c k u hu (by omega : k ≤ m) _ ?_]
          · simp
          · intro it hit
            rcases List.mem_append.mp hit with h1 | h1
            · exact hproc it h1
            · rcases List.mem_singleton.mp h1 with rfl
              rw [hstate]
              rcases hu with h | h <;> rw [h] <;> intro hc <;> cases hc
        rw [if_neg hdeps]
        obtain ⟨log', h⟩ := ih hk'
          (processed ++ [{ chainItem c (stFun k u) (m + 1) with state := TryAgain }])
          log false hproc'
        refine ⟨log', ?_⟩
        rw [h, hsatflag, List.append_assoc, List.singleton_append, hitemTA,
          ← chainQ_succ]
        simp
      · -- detect style: runs, sees an incomplete predecessor, `TryAgain`
        have hdeps : (chainItem c (stFun k u) (m + 1)).deps.all
            (fun d => satisfiedQ (processed ++
              chainItem c (stFun k u) (m + 1) :: chainQ c k u (m + 1)) d) = true := by
          show (chainDeps (c (m + 1)) (m + 1)).all _ = true
          rw [hcm]
          rfl
        have hrun : (chainItem c (stFun k u) (m + 1)).state = TryAgain ∨
            (chainItem c (stFun k u) (m + 1)).state = UnRun := by
          rw [hstate]
          rcases hu with h | h
          · exact Or.inr h
          · exact Or.inl h
        have hact : (chainItem c (stFun k u) (m + 1)).f k = (k, TryAgain) := by
          show chainAct (c (m + 1)) (m + 1) k = _
          rw [hcm]
          exact chainAct_run_blocked (m + 1) k (by omega)
        rw [if_pos hdeps, runItem_invoke _ k hrun, hact]
        show ∃ log', onePass (processed ++
            [{ chainItem c (stFun k u) (m + 1) with state := TryAgain }])
            (chainQ c k u (m + 1)) k
            (log ++ [(chainItem c (stFun k u) (m + 1)).name]) false = _
        obtain ⟨log', h⟩ := ih hk'
          (processed ++ [{ chainItem c (stFun k u) (m + 1) with state := TryAgain }])
          (log ++ [(chainItem c (stFun k u) (m + 1)).name]) false hproc'
        refine ⟨log', ?_⟩
        rw [h, hsatflag, List.append_assoc, List.singleton_append, hitemTA,
          ← chainQ_succ]
        simp

/-- The pass loop on the reversed chain completes one link per pass and
converges after exactly `N - k` more passes. -/
theorem chain_loop (c : Nat → Bool) (N : Nat) (U B : Bool) :
    ∀ (fuel k : Nat) (u : ReqResult) (log : List String) (pcount : Nat),
    (u = UnRun ∨ u = TryAgain) → k < N → N - k ≤ fuel →
    ∃ q' w' log', processLoop U B (chainQ c k u N) k log pcount fuel =
      ⟨.ok, q', w', log', pcount + (N - k)⟩ := by
  intro fuel
  induction fuel with
  | zero =>
    intro k u log pcount _ hk hfuel
    omega
  | succ fuel ih =>
    intro k u log pcount hu hk hfuel
    have hN : N = (N - 1) + 1 := by omega
    obtain ⟨log', hp⟩ := chain_pass c k u hu (N - 1) (by omega) [] log true (by simp)
    rw [← hN] at hp
    rw [List.nil_append] at hp
    by_cases hk1 : N - 1 = k
    · have hsat : (true && decide (N - 1 = k)) = true := by
        rw [decide_eq_true hk1]
        rfl
      rw [hsat] at hp
      refine ⟨chainQ c (k + 1) TryAgain N, k + 1, log', ?_⟩
      have harith : N - k = 1 := by omega
      rw [harith, processLoop_succ, hp]
      rfl
    · have hsat : (true && decide (N - 1 = k)) = false := by
        rw [decide_eq_false hk1]
        rfl
      rw [hsat] at hp
      obtain ⟨q', w', log'', hrec⟩ := ih (k + 1) TryAgain log' (pcount + 1)
        (Or.inr rfl) (by omega) (by omega)
      refine ⟨q', w', log'', ?_⟩
      have harith : pcount + (N - k) = (pcount + 1) + (N - (k + 1)) := by omega
      rw [harith, processLoop_succ, hp]
      exact hrec

theorem chainQ_length (c : Nat → Bool) (k : Nat) (u : ReqResult) (n : Nat) :
    (chainQ c k u n).length = n := by
  simp [chainQ]

theorem labelsOf_chainQ (c : Nat → Bool) (k : Nat) (u : ReqResult) (n : Nat) :
    labelsOf (chainQ c k u n) = (List.range n).reverse.map chainName := by
  unfold labelsOf chainQ
  rw [List.map_map]
  rfl

/-- The pass counter of `process` never exceeds `N + 1`. -/
theorem process_passes_le (rq : InitQState σ) (u b : Bool) (w : σ) :
    (process rq u b w).passes ≤ rq.q.length + 1 := by
  unfold process
  by_cases ha : rq.addErr.length > 0
  · rw [if_pos ha]
    show (0 : Nat) ≤ rq.q.length + 1
    omega
  · rw [if_neg ha]
    cases hdup : findDup [] rq.q with
    | some nm =>
      by_cases hb : b = true
      · subst hb
        show (0 : Nat) ≤ rq.q.length + 1
        omega
      · rw [Bool.not_eq_true] at hb
        subst hb
        show (0 : Nat) ≤ rq.q.length + 1
        omega
    | none =>
      cases hdang : findDangling (labelsOf rq.q) rq.q with
      | some td =>
        by_cases hb : b = true
        · subst hb
          show (0 : Nat) ≤ rq.q.length + 1
          omega
        · rw [Bool.not_eq_true] at hb
          subst hb
          show (0 : Nat) ≤ rq.q.length + 1
          omega
      | none =>
        calc (processLoop u b rq.q w [] 0 (rq.q.length + 1)).passes
            ≤ 0 + (rq.q.length + 1) := processLoop_passes_le _ u b rq.q w [] 0
          _ = rq.q.length + 1 := by omega

/-- C6: the resolution loop enters at most `N + 1` passes, where `N` is the
number of registered records; and every reversed worst-case chain of `N ≥ 1`
tasks — each task either blocked by an explicit dependency on, or with an
action returning `Retry` until the completion of, its predecessor
(per-task style selected by `c`) — converges to success in exactly `N`
passes, within that budget, from either entry point and under either
toggle. -/
theorem C6_pass_budget_and_chain :
    (∀ (σ : Type) (rq : InitQState σ) (u b : Bool) (w : σ),
      (process rq u b w).passes ≤ rq.q.length + 1) ∧
    (∀ (n : Nat) (c : Nat → Bool) (u b : Bool), 1 ≤ n →
      (process (chainInit c n) u b 0).res = .ok ∧
      (process (chainInit c n) u b 0).passes = n ∧
      (chainInit c n).q.length = n) := by
  constructor
  · intro σ rq u b w
    exact process_passes_le rq u b w
  · intro n c u b hn
    have hlen : (chainInit c n).q.length = n := chainQ_length c 0 UnRun n
    have hnd : (labelsOf (chainInit c n).q).Nodup := by
      show (labelsOf (chainQ c 0 UnRun n)).Nodup
      rw [labelsOf_chainQ]
      exact List.Nodup.map chainName_inj (List.nodup_reverse.mpr (List.nodup_range n))
    have hdeps : ∀ it ∈ (chainInit c n).q, ∀ d ∈ it.deps,
        d ∈ labelsOf (chainInit c n).q := by
      intro it hit d hd
      obtain ⟨j, hj, rfl⟩ := chainQ_mem_elim c 0 UnRun hit
      have hd' : d ∈ chainDeps (c j) j := hd
      show d ∈ labelsOf (chainQ c 0 UnRun n)
      rw [labelsOf_chainQ]
      cases hcj : c j
      · rw [hcj] at hd'
        unfold chainDeps at hd'
        rw [if_neg (by simp)] at hd'
        by_cases hj0 : j = 0
        · rw [if_pos hj0] at hd'
          cases hd'
        · rw [if_neg hj0] at hd'
          rcases List.mem_singleton.mp hd' with rfl
          exact List.mem_map_of_mem _ (by simp; omega)
      · rw [hcj] at hd'
        cases hd'
    have hdup : findDup [] (chainInit c n).q = none :=
      findDup_eq_none _ [] hnd (by simp)
    have hdang : findDangling (labelsOf (chainInit c n).q) (chainInit c n).q =
        none := (findDangling_eq_none_iff _ _).mpr hdeps
    have heq := process_eq_loop (chainInit c n) u b 0 rfl hdup hdang
    obtain ⟨q', w', log', hloop⟩ := chain_loop c n u b
      ((chainInit c n).q.length + 1) 0 UnRun [] 0 (Or.inl rfl) (by omega)
      (by rw [hlen]; omega)
    rw [heq]
    show (processLoop u b (chainQ c 0 UnRun n) 0 [] 0
        ((chainInit c n).q.length + 1)).res = .ok ∧
      (processLoop u b (chainQ c 0 UnRun n) 0 [] 0
        ((chainInit c n).q.length + 1)).passes = n ∧
      (chainInit c n).q.length = n
    rw [hloop]
    refine ⟨rfl, ?_, hlen⟩
    show 0 + (n - 0) = n
    omega

/-- Witness for C6 at a mixed-style three-task reversed chain. -/
theorem C6_pass_budget_and_chain_witness :
    (process (chainInit (fun j => j % 2 == 0) 3) false false 0).res = .ok ∧
    (process (chainInit (fun j => j % 2 == 0) 3) false false 0).passes = 3 ∧
    (chainInit (fun j => j % 2 == 0) 3).q.length = 3 :=
  C6_pass_budget_and_chain.2 3 (fun j => j % 2 == 0) false false (by omega)

/-! ## Order independence machinery -/

theorem exists_min_on {α : Type} (f : α → Nat) :
    ∀ (l : List α), l ≠ [] → ∃ x ∈ l, ∀ y ∈ l, f x ≤ f y := by
  intro l
  induction l with
  | nil => intro h; exact absurd rfl h
  | cons a l ih =>
    intro _
    by_cases hl : l = []
    · subst hl
      exact ⟨a, List.mem_cons_self _ _, by
        intro y hy
        rcases List.mem_singleton.mp hy with rfl
        exact Nat.le_refl _⟩
    · obtain ⟨x, hx, hmin⟩ := ih hl
      by_cases hax : f a ≤ f x
      · refine ⟨a, List.mem_cons_self _ _, ?_⟩
        intro y hy
        rcases List.mem_cons.mp hy with rfl | hy
        · exact Nat.le_refl _
        · exact Nat.le_trans hax (hmin y hy)
      · refine ⟨x, List.mem_cons_of_mem _ hx, ?_⟩
        intro y hy
        rcases List.mem_cons.mp hy with rfl | hy
        · exact Nat.le_of_lt (Nat.lt_of_not_le hax)
        · exact hmin y hy

theorem satCount_cons (x : InitQItem σ) (l : List (InitQItem σ)) :
    satCount (x :: l) =
      (if x.state = Satisfied then 1 else 0) + satCount l := by
  unfold satCount
  rw [List.filter_cons]
  by_cases hx : x.state = Satisfied
  · simp [hx]
    omega
  · simp [hx]

theorem satCount_le_length (q : List (InitQItem σ)) :
    satCount q ≤ q.length := List.length_filter_le _ _

theorem satCount_mono {q q' : List (InitQItem σ)} (h : Evol q q') :
    satCount q ≤ satCount q' := by
  induction h with
  | nil => exact Nat.le_refl _
  | @cons a b l1 l2 hab htail ih =>
    rw [satCount_cons, satCount_cons]
    by_cases hsa : a.state = Satisfied
    · rw [if_pos hsa, if_pos (hab.2.2.2 hsa)]
      omega
    · rw [if_neg hsa]
      by_cases hsb : b.state = Satisfied
      · rw [if_pos hsb]
        omega
      · rw [if_neg hsb]
        omega

/-- Strict growth of the satisfied count: if some record (labels unique)
that was not `Satisfied` has become satisfied, the count increased. -/
theorem satCount_lt {q q' : List (InitQItem σ)} (h : Evol q q') :
    (labelsOf q).Nodup → ∀ x ∈ q, x.state ≠ Satisfied →
    satisfiedQ q' x.name = true → satCount q < satCount q' := by
  induction h with
  | nil => intro _ x hx; cases hx
  | @cons a b l1 l2 hab htail ih =>
    intro hnd x hx hxs hsat
    rw [satCount_cons, satCount_cons]
    have hnd' : a.name ∉ labelsOf l1 ∧ (labelsOf l1).Nodup := by
      rw [labelsOf, List.map_cons, List.nodup_cons] at hnd
      exact hnd
    rw [satisfiedQ_cons] at hsat
    rcases List.mem_cons.mp hx with rfl | hxl
    · rcases Bool.or_eq_true _ _ |>.mp hsat with h1 | h1
      · rw [decide_eq_true_eq] at h1
        rw [if_neg hxs, if_pos h1.2]
        have := satCount_mono htail
        omega
      · exfalso
        obtain ⟨it, hit, hname, hsat2⟩ := satisfiedQ_iff.mp h1
        have hlab : labelsOf l1 = labelsOf l2 := Evol.labels htail
        refine hnd'.1 ?_
        rw [hlab, ← hname]
        exact List.mem_map_of_mem _ hit
    · rcases Bool.or_eq_true _ _ |>.mp hsat with h1 | h1
      · exfalso
        rw [decide_eq_true_eq] at h1
        refine hnd'.1 ?_
        rw [hab.1, h1.1]
        exact List.mem_map_of_mem _ hxl
      · have hlt := ih hnd'.2 x hxl hxs h1
        by_cases hsa : a.state = Satisfied
        · rw [if_pos hsa, if_pos (hab.2.2.2 hsa)]
          omega
        · rw [if_neg hsa]
          by_cases hsb : b.state = Satisfied
          · rw [if_pos hsb]
            omega
          · rw [if_neg hsb]
            omega

/-- When no pending record is `Stopped` and every pending action reports
`Satisfied` whenever invoked, the pass runs to its end. -/
theorem onePass_ok_of (pending : List (InitQItem σ)) :
    ∀ (processed : List (InitQItem σ)) (w : σ) (log : List String) (sat : Bool),
    (∀ it ∈ pending, it.state ≠ Stop ∧ ConstSat it.f) →
    ∃ q' w' log' sat', onePass processed pending w log sat =
      .ok q' w' log' sat' := by
  induction pending with
  | nil =>
    intro processed w log sat _
    exact ⟨processed, w, log, sat, onePass_nil _ _ _ _⟩
  | cons rqi rest ih =>
    intro processed w log sat hgood
    have hhead := hgood rqi (List.mem_cons_self _ _)
    have hrest : ∀ it ∈ rest, it.state ≠ Stop ∧ ConstSat it.f :=
      fun it hit => hgood it (List.mem_cons_of_mem _ hit)
    rw [onePass_cons]
    by_cases hdeps : rqi.deps.all
        (fun d => satisfiedQ (processed ++ rqi :: rest) d) = true
    · rw [if_pos hdeps]
      by_cases hrun : rqi.state = TryAgain ∨ rqi.state = UnRun
      · rw [runItem_invoke rqi w hrun]
        cases hr : (rqi.f w).2
        · exact absurd (hhead.2 w) (by rw [hr]; intro hc; cases hc)
        · exact ih _ _ _ _ hrest
        · exact ih _ _ _ _ hrest
        · exact absurd (hhead.2 w) (by rw [hr]; intro hc; cases hc)
      · rw [runItem_skip rqi w hrun]
        push_neg at hrun
        rcases hst : rqi.state
        · exact absurd hst hrun.2
        · exact ih _ _ _ _ hrest
        · exact absurd hst hrun.1
        · exact absurd hst hhead.1
    · rw [if_neg hdeps]
      exact ih _ _ _ _ hrest

/-- Progress: under the invariant, any pending record whose explicit
dependencies are all satisfied at pass start and whose action always
reports `Satisfied` is satisfied in the queue the pass returns. -/
theorem onePass_progress (pending : List (InitQItem σ)) :
    ∀ (processed : List (InitQItem σ)) (w : σ) (log : List String) (sat : Bool),
    GoodQ (processed ++ pending) →
    (∀ it ∈ pending, it.state ≠ Stop ∧ ConstSat it.f) →
    ∀ x ∈ pending, x.state ≠ Satisfied →
      (∀ d ∈ x.deps, satisfiedQ (processed ++ pending) d = true) →
      satisfiedQ ((onePass processed pending w log sat).outQ) x.name = true := by
  induction pending with
  | nil =>
    intro _ _ _ _ _ _ x hx
    cases hx
  | cons rqi rest ih =>
    intro processed w log sat hg hpend x hx hxs hxdeps
    have hhead := hpend rqi (List.mem_cons_self _ _)
    have hrest : ∀ it ∈ rest, it.state ≠ Stop ∧ ConstSat it.f :=
      fun it hit => hpend it (List.mem_cons_of_mem _ hit)
    rw [onePass_cons]
    by_cases hdeps : rqi.deps.all
        (fun d => satisfiedQ (processed ++ rqi :: rest) d) = true
    · rw [if_pos hdeps]
      have hdepsAll : ∀ d ∈ rqi.deps,
          satisfiedQ (processed ++ rqi :: rest) d = true :=
        fun d hd => List.all_eq_true.mp hdeps d hd
      by_cases hrun : rqi.state = TryAgain ∨ rqi.state = UnRun
      · have hnotSat : ¬ rqi.state = Satisfied := by
          rcases hrun with h | h <;> simp [h]
        rw [runItem_invoke rqi w hrun]
        have hr : (rqi.f w).2 = Satisfied := hhead.2 w
        rw [hr]
        show satisfiedQ ((onePass
          (processed ++ [{ rqi with state := Satisfied }]) rest
          (rqi.f w).1 (log ++ [rqi.name]) sat).outQ) x.name = true
        have hQ1 : GoodQ ((processed ++ [{ rqi with state := Satisfied }]) ++ rest) := by
          rw [← List.append_cons]
          refine GoodQ_replace hg rfl rfl (fun _ => rfl) ?_
          intro _ d hd
          exact hdepsAll d hd
        rcases List.mem_cons.mp hx with rfl | hxl
        · have hevol := (onePass_good rest
            (processed ++ [{ x with state := Satisfied }])
            (x.f w).1 (log ++ [x.name]) sat hQ1).1
          refine satisfiedQ_mono hevol x.name ?_
          refine satisfiedQ_iff.mpr
            ⟨{ x with state := Satisfied }, ?_, rfl, rfl⟩
          exact List.mem_append.mpr (Or.inl (List.mem_append.mpr (Or.inr
            (List.mem_singleton.mpr rfl))))
        · refine ih (processed ++ [{ rqi with state := Satisfied }])
            (rqi.f w).1 (log ++ [rqi.name]) sat hQ1 hrest x hxl hxs ?_
          intro d hd
          rw [← List.append_cons]
          exact @satisfiedQ_replace σ processed rest rqi
            { rqi with state := Satisfied } rfl (fun _ => rfl) d (hxdeps d hd)
      · rw [runItem_skip rqi w hrun]
        push_neg at hrun
        rcases hst : rqi.state
        · exact absurd hst hrun.2
        · -- head already Satisfied, skipped
          have hQ1 : GoodQ ((processed ++ [rqi]) ++ rest) := by
            rw [← List.append_cons]
            exact hg
          rcases List.mem_cons.mp hx with rfl | hxl
          · exact absurd hst hxs
          · refine ih (processed ++ [rqi]) w log sat hQ1 hrest x hxl hxs ?_
            intro d hd
            rw [← List.append_cons]
            exact hxdeps d hd
        · exact absurd hst hrun.1
        · exact absurd hst hhead.1
    · rw [if_neg hdeps]
      have hnotSat : ¬ (rqi.state = Satisfied ∨ rqi.state = Stop) := by
        intro hss
        refine hdeps (List.all_eq_true.mpr ?_)
        intro d hd
        exact hg rqi (List.mem_append.mpr (Or.inr (List.mem_cons_self _ _))) hss d hd
      rcases List.mem_cons.mp hx with rfl | hxl
      · exact absurd (List.all_eq_true.mpr hxdeps) hdeps
      · have hQ1 : GoodQ ((processed ++ [{ rqi with state := TryAgain }]) ++ rest) := by
          rw [← List.append_cons]
          refine GoodQ_replace hg rfl rfl (fun h => absurd (Or.inl h) hnotSat) ?_
          intro h
          rcases h with h | h <;> exact absurd h (by simp)
        refine ih (processed ++ [{ rqi with state := TryAgain }]) w log false
          hQ1 hrest x hxl hxs ?_
        intro d hd
        rw [← List.append_cons]
        exact @satisfiedQ_replace σ processed rest rqi
          { rqi with state := TryAgain } rfl (fun h => absurd (Or.inl h) hnotSat) d
          (hxdeps d hd)

/-- Under acyclic explicit dependencies (witnessed by a rank function) and
always-`Satisfied` actions, the pass loop converges within its budget: each
pass satisfies at least the rank-minimal unsatisfied record. -/
theorem processLoop_dag (rank : String → Nat) (u b : Bool) :
    ∀ (fuel : Nat) (q : List (InitQItem σ)) (w : σ) (log : List String)
      (pcount : Nat),
    GoodQ q →
    (∀ it ∈ q, it.state ≠ Stop ∧ ConstSat it.f) →
    (labelsOf q).Nodup →
    (∀ it ∈ q, ∀ d ∈ it.deps, d ∈ labelsOf q) →
    (∀ it ∈ q, ∀ d ∈ it.deps, rank d < rank it.name) →
    q.length + 1 ≤ satCount q + fuel →
    (processLoop u b q w log pcount fuel).res = .ok := by
  intro fuel
  induction fuel with
  | zero =>
    intro q w log pcount _ _ _ _ _ hbudget
    have := satCount_le_length q
    omega
  | succ fuel ih =>
    intro q w log pcount hg hcs hnd hdl hrank hbudget
    obtain ⟨q', w', log', sat', hp⟩ := onePass_ok_of q [] w log true hcs
    have hgq : GoodQ ([] ++ q) := hg
    obtain ⟨hev, hgood'⟩ := onePass_good q [] w log true hgq
    rw [hp] at hev hgood'
    simp only [PassOut.outQ] at hev hgood'
    simp only [List.nil_append] at hev
    by_cases hs : sat' = true
    · subst hs
      simp only [processLoop_succ, hp, if_pos]
    · rw [Bool.not_eq_true] at hs
      subst hs
      simp only [processLoop_succ, hp, Bool.false_eq_true, if_false]
      have hstates := onePass_states q [] w log true (by simp) q' w' log' false hp
      have hex : ∃ x ∈ q, x.state ≠ Satisfied := by
        by_contra hall
        push_neg at hall
        have hwalk := onePass_sat_prefix q [] [] w log true hall
          (fun it hit d hd => by
            rw [List.nil_append, List.append_nil]
            exact satisfiedQ_of_all_sat hall (hdl it hit d hd))
        rw [List.append_nil] at hwalk
        rw [hwalk, onePass_nil, List.nil_append] at hp
        cases hp
      obtain ⟨x0, hx0q, hx0ns⟩ := hex
      have hne : q.filter (fun it => !decide (it.state = Satisfied)) ≠ [] := by
        intro hnil
        have : x0 ∈ q.filter (fun it => !decide (it.state = Satisfied)) := by
          rw [List.mem_filter]
          exact ⟨hx0q, by simp [hx0ns]⟩
        rw [hnil] at this
        cases this
      obtain ⟨x, hxmem, hxmin⟩ :=
        exists_min_on (fun it => rank it.name) _ hne
      have hxq : x ∈ q := (List.mem_filter.mp hxmem).1
      have hxns : x.state ≠ Satisfied := by
        have := (List.mem_filter.mp hxmem).2
        simpa using this
      have hxdeps : ∀ d ∈ x.deps, satisfiedQ ([] ++ q) d = true := by
        intro d hd
        rw [List.nil_append]
        obtain ⟨y, hyq, hyname⟩ := List.mem_map.mp (hdl x hxq d hd)
        have hrankd : rank d < rank x.name := hrank x hxq d hd
        have hysat : y.state = Satisfied := by
          by_contra hyns
          have hymem : y ∈ q.filter (fun it => !decide (it.state = Satisfied)) := by
            rw [List.mem_filter]
            exact ⟨hyq, by simp [hyns]⟩
          have := hxmin y hymem
          rw [hyname] at this
          omega
        exact satisfiedQ_iff.mpr ⟨y, hyq, hyname, hysat⟩
      have hprog := onePass_progress q [] w log true hgq hcs x hxq hxns hxdeps
      rw [hp] at hprog
      simp only [PassOut.outQ] at hprog
      have hcount : satCount q < satCount q' := satCount_lt hev hnd x hxq hxns hprog
      refine ih q' w' log' (pcount + 1) hgood' ?_ ?_ ?_ ?_ ?_
      · intro it' hit'
        obtain ⟨it, hit, hitev⟩ := Evol.mem_right hev hit'
        constructor
        · rcases hstates it' hit' with h | h <;> rw [h] <;> intro hc <;> cases hc
        · rw [← hitev.2.1]
          exact (hcs it hit).2
      · rw [← Evol.labels hev]
        exact hnd
      · intro it' hit' d hd
        obtain ⟨it, hit, hitev⟩ := Evol.mem_right hev hit'
        rw [← Evol.labels hev]
        rw [← hitev.2.2.1] at hd
        exact hdl it hit d hd
      · intro it' hit' d hd
        obtain ⟨it, hit, hitev⟩ := Evol.mem_right hev hit'
        rw [← hitev.1]
        rw [← hitev.2.2.1] at hd
        exact hrank it hit d hd
      · have hlen : q'.length = q.length := (Evol.length hev).symm
        omega

/-- C7: for every set of tasks whose explicit ("semaphore") dependency
labels form a DAG — witnessed by a rank function decreasing along
dependencies — and whose actions report `Done` whenever they are permitted
to run, resolution succeeds; quantifying over all such queues covers every
registration order of the set, and either entry point and toggle setting. -/
theorem C7_order_independence {σ : Type} (rq : InitQState σ) (u b : Bool)
    (w : σ) (rank : String → Nat)
    (ha : rq.addErr = "")
    (hfresh : ∀ it ∈ rq.q, it.state = UnRun)
    (hconst : ∀ it ∈ rq.q, ConstSat it.f)
    (hnd : (labelsOf rq.q).Nodup)
    (hdl : ∀ it ∈ rq.q, ∀ d ∈ it.deps, d ∈ labelsOf rq.q)
    (hrank : ∀ it ∈ rq.q, ∀ d ∈ it.deps, rank d < rank it.name) :
    (process rq u b w).res = .ok := by
  have halen : rq.addErr.length = 0 := by rw [ha]; rfl
  rw [process_eq_loop rq u b w halen (findDup_eq_none _ [] hnd (by simp))
    ((findDangling_eq_none_iff _ _).mpr hdl)]
  refine processLoop_dag rank u b (rq.q.length + 1) rq.q w [] 0 ?_ ?_ hnd hdl
    hrank ?_
  · intro it hit hss
    rw [hfresh it hit] at hss
    rcases hss with h | h <;> cases h
  · intro it hit
    refine ⟨?_, hconst it hit⟩
    rw [hfresh it hit]
    intro h
    cases h
  · omega

/-- Witness for C7 at a two-task chain registered in reverse order. -/
theorem C7_order_independence_witness :
    (process (⟨[{ f := constU Satisfied, name := "ab", state := UnRun,
                  deps := ["a"] },
                { f := constU Satisfied, name := "a", state := UnRun,
                  deps := [] }], ""⟩ : InitQState Unit) false false ()).res =
      .ok := by
  refine C7_order_independence _ false false () String.length rfl ?_ ?_
    (by decide) (by decide) (by decide)
  · decide
  · intro it hit
    simp only [List.mem_cons, List.mem_singleton] at hit
    rcases hit with rfl | hit
    · intro w0
      rfl
    · rcases hit with rfl | hit
      · intro w0
        rfl
      · cases hit
